import Mathlib

/-!
Verification of the copperline line-editing engine.

This file gives a shallow embedding, in Lean 4, of the core of the
copperline library (src/buffer.rs, src/parser.rs, src/instr.rs,
src/edit.rs, src/history.rs, src/run.rs) and proves properties of the
embedded code.

Modelling conventions:
  * The line text is a `List Char`; the external grapheme-segmentation
    collaborator (the unicode-segmentation crate) is modelled by treating
    every `Char` as one grapheme cluster, which is exact for all text in
    which no combining sequences occur.
  * Rust byte offsets into the UTF-8 string are modelled exactly via
    `charUtf8Len` (the UTF-8 encoded length of a scalar value, as
    computed by Rust's `char::len_utf8`).
  * The external display-width collaborator (the unicode-width crate) is
    modelled by `charWidth`, which returns 2 on the CJK ideograph blocks
    (U+3400..U+4DBF and U+4E00..U+9FFF, all East Asian Wide) and 1
    elsewhere; this agrees with unicode-width on every character used in
    this development.
  * Rust `char::is_whitespace` (the Unicode White_Space property) is
    reproduced exactly by `isWhitespaceChar`; `char::is_alphanumeric`
    inside `is_vi_keyword` is modelled on the ASCII and CJK ranges used
    here (theorems about word motions take the character classes as
    hypotheses, so the exact extension of the table is irrelevant there).
  * `usize` values are `Nat`; `u32` is `Nat` together with the explicit
    bound `u32Max`; Rust `while` loops are given explicit fuel, and every
    wrapper supplies fuel that is proved (or, for concrete runs, checked
    by evaluation) to be sufficient.
  * The configurable character-encoding collaborator (the encoding crate)
    is a parameter of type `Enc`; `asciiEnc` instantiates it with the
    ASCII codec used by the repository's own tests.
-/

set_option autoImplicit false

namespace Copperline

/-- UTF-8 encoded length of a character, as computed by Rust `char::len_utf8`. -/
def charUtf8Len (c : Char) : Nat :=
  if c.toNat < 0x80 then 1
  else if c.toNat < 0x800 then 2
  else if c.toNat < 0x10000 then 3
  else 4

/-- Byte length of a string (list of characters) in UTF-8, Rust `str::len`. -/
def byteLen : List Char → Nat
  | [] => 0
  | c :: cs => charUtf8Len c + byteLen cs

/-- Display width of a character: models the external unicode-width
collaborator; 2 on the CJK ideograph blocks (East Asian Wide), 1 elsewhere. -/
def charWidth (c : Char) : Nat :=
  if (0x3400 ≤ c.toNat ∧ c.toNat ≤ 0x4DBF) ∨ (0x4E00 ≤ c.toNat ∧ c.toNat ≤ 0x9FFF) then 2
  else 1

/-- Display width of a string, Rust `UnicodeWidthStr::width`. -/
def strWidth : List Char → Nat
  | [] => 0
  | c :: cs => charWidth c + strWidth cs

/-- Rust `char::is_whitespace`: the Unicode White_Space property, reproduced
exactly (code points 9..13, 32, 0x85, 0xA0, 0x1680, 0x2000..0x200A, 0x2028,
0x2029, 0x202F, 0x205F, 0x3000). -/
def isWhitespaceChar (c : Char) : Bool :=
  let n := c.toNat
  (9 ≤ n && n ≤ 13) || n = 32 || n = 0x85 || n = 0xA0 || n = 0x1680 ||
  (0x2000 ≤ n && n ≤ 0x200A) || n = 0x2028 || n = 0x2029 || n = 0x202F ||
  n = 0x205F || n = 0x3000

/-- Rust `is_vi_keyword` (buffer.rs): `c == '_' || c.is_alphanumeric()`; the
alphanumeric table is modelled on the ASCII letter/digit ranges and the CJK
ideograph blocks. -/
def is_vi_keyword (c : Char) : Bool :=
  let n := c.toNat
  n = 95 || (48 ≤ n && n ≤ 57) || (65 ≤ n && n ≤ 90) || (97 ≤ n && n ≤ 122) ||
  (0x3400 ≤ n && n ≤ 0x4DBF) || (0x4E00 ≤ n && n ≤ 0x9FFF)

/-- Rust struct `Position` (buffer.rs): a byte offset paired with the
char/display cursor coordinate. -/
structure Position where
  byte_pos : Nat
  char_pos : Nat
deriving DecidableEq

/-- Rust `Position::set_to_end_of_str`. -/
def Position.set_to_end_of_str (_ : Position) (buf : List Char) : Position :=
  { byte_pos := byteLen buf, char_pos := strWidth buf }

/-- Rust `Position::increase_by_char`. -/
def Position.increase_by_char (p : Position) (c : Char) : Position :=
  { byte_pos := p.byte_pos + charUtf8Len c, char_pos := p.char_pos + 1 }

/-- Rust `Position::decrease_by_str` (Nat subtraction stands in for the
`usize` subtraction, which never underflows at the reachable call sites). -/
def Position.decrease_by_str (p : Position) (buf : List Char) : Position :=
  { byte_pos := p.byte_pos - byteLen buf, char_pos := p.char_pos - strWidth buf }

/-- The derived lexicographic `Ord` on Rust `Position` (field order:
`byte_pos`, then `char_pos`). -/
def posCmp (p q : Position) : Ordering :=
  if p.byte_pos < q.byte_pos then .lt
  else if q.byte_pos < p.byte_pos then .gt
  else if p.char_pos < q.char_pos then .lt
  else if q.char_pos < p.char_pos then .gt
  else .eq

/-- Rust `String::insert` at a byte offset (defined on char boundaries). -/
def insertAtByte (l : List Char) (b : Nat) (c : Char) : List Char :=
  match l with
  | [] => [c]
  | x :: xs => if b = 0 then c :: x :: xs else x :: insertAtByte xs (b - charUtf8Len x) c

/-- Rust `String::remove` at a byte offset (defined on char boundaries). -/
def removeAtByte (l : List Char) (b : Nat) : List Char :=
  match l with
  | [] => []
  | x :: xs => if b = 0 then xs else x :: removeAtByte xs (b - charUtf8Len x)

/-- Rust struct `Buffer` (buffer.rs): front text, back (history-stash) text
and the cursor position. -/
structure Buffer where
  front_buf : List Char
  back_buf : List Char
  pos : Position
deriving DecidableEq

/-- Rust `Buffer::new`. -/
def Buffer.new : Buffer :=
  { front_buf := [], back_buf := [], pos := { byte_pos := 0, char_pos := 0 } }

/-- Rust `Buffer::swap`: exchange front and back, cursor to the new front's end. -/
def Buffer.swap (b : Buffer) : Buffer :=
  { front_buf := b.back_buf, back_buf := b.front_buf,
    pos := b.pos.set_to_end_of_str b.back_buf }

/-- Rust `Buffer::replace`. -/
def Buffer.replace (b : Buffer) (s : List Char) : Buffer :=
  { b with front_buf := s, pos := b.pos.set_to_end_of_str s }

/-- Rust `Buffer::insert_char_at_cursor`. -/
def Buffer.insert_char_at_cursor (b : Buffer) (c : Char) : Buffer :=
  { b with front_buf := insertAtByte b.front_buf b.pos.byte_pos c,
           pos := b.pos.increase_by_char c }

/-- Rust `Buffer::insert_chars_at_cursor`. -/
def Buffer.insert_chars_at_cursor (b : Buffer) (s : List Char) : Buffer :=
  s.foldl Buffer.insert_char_at_cursor b

/-- Rust `Buffer::prev_pos`: the position one grapheme to the left, when the
grapheme with index `char_pos - 1` exists. -/
def Buffer.prev_pos (b : Buffer) : Option Position :=
  if b.pos.char_pos = 0 then none
  else
    match b.front_buf[b.pos.char_pos - 1]? with
    | some prev => some { byte_pos := b.pos.byte_pos - charUtf8Len prev,
                          char_pos := b.pos.char_pos - 1 }
    | none => none

/-- Rust `Buffer::move_left`. -/
def Buffer.move_left (b : Buffer) : Buffer × Bool :=
  match b.prev_pos with
  | some p => ({ b with pos := p }, true)
  | none => (b, false)

/-- Rust `Buffer::next_pos`. -/
def Buffer.next_pos (b : Buffer) : Option Position :=
  match b.front_buf[b.pos.char_pos]? with
  | some next => some { byte_pos := b.pos.byte_pos + charUtf8Len next,
                        char_pos := b.pos.char_pos + 1 }
  | none => none

/-- Rust `Buffer::cp_after`: the first scalar of the grapheme under the cursor. -/
def Buffer.cp_after (b : Buffer) : Option Char :=
  b.front_buf[b.pos.char_pos]?

/-- Rust `Buffer::move_right`. -/
def Buffer.move_right (b : Buffer) : Buffer × Bool :=
  match b.next_pos with
  | some p => ({ b with pos := p }, true)
  | none => (b, false)

/-- Rust `Buffer::exclude_eol`: `let end = self.move_right(); self.move_left(); end`. -/
def Buffer.exclude_eol (b : Buffer) : Buffer × Bool :=
  let r := b.move_right
  ((r.1.move_left).1, r.2)

/-- Rust `Buffer::move_start`. -/
def Buffer.move_start (b : Buffer) : Buffer :=
  { b with pos := { byte_pos := 0, char_pos := 0 } }

/-- Rust `Buffer::move_end`. -/
def Buffer.move_end (b : Buffer) : Buffer :=
  { b with pos := b.pos.set_to_end_of_str b.front_buf }

/-- Rust `Buffer::delete_char_left_of_cursor`. -/
def Buffer.delete_char_left_of_cursor (b : Buffer) : Buffer × Bool :=
  let r := b.move_left
  if r.2 then
    ({ r.1 with front_buf := removeAtByte r.1.front_buf r.1.pos.byte_pos }, true)
  else (r.1, false)

/-- Rust `Buffer::delete_char_right_of_cursor`. -/
def Buffer.delete_char_right_of_cursor (b : Buffer) : Buffer × Bool :=
  if b.pos.byte_pos < byteLen b.front_buf then
    ({ b with front_buf := removeAtByte b.front_buf b.pos.byte_pos }, true)
  else (b, false)

/-- Rust enum `ViMoveMode` (buffer.rs). -/
inductive ViMoveMode where
  | keyword
  | whitespace
deriving DecidableEq

/-- Rust enum `ViMoveDir` (buffer.rs). -/
inductive ViMoveDir where
  | left
  | right
deriving DecidableEq

/-- The `advance` closure of the word/char scanning loops in buffer.rs. -/
def advance (dir : ViMoveDir) (b : Buffer) : Buffer × Bool :=
  match dir with
  | .right => b.move_right
  | .left => b.move_left

/-- The `go_back` closure of `Buffer::vi_move_word_end`. -/
def goBack (dir : ViMoveDir) (b : Buffer) : Buffer × Bool :=
  match dir with
  | .right => b.move_left
  | .left => b.move_right

/-- The local 3-valued `State` enum of Rust `Buffer::vi_move_word`. -/
inductive WordState where
  | ws
  | kw
  | nk
deriving DecidableEq

/-- The `while advance(self)` loop of Rust `Buffer::vi_move_word`, with
explicit fuel (each successful advance changes `char_pos` by exactly one, so
the fuel supplied by the wrapper is never exhausted on states reachable from
valid cursor positions). -/
def viMoveWordLoop (mode : ViMoveMode) (dir : ViMoveDir) :
    Nat → WordState → Buffer → Buffer × Bool
  | 0, _, b => (b, false)
  | fuel + 1, st, b =>
    let r := advance dir b
    if r.2 then
      match r.1.cp_after with
      | none => (r.1, false)
      | some c =>
        match st with
        | .ws =>
          if isWhitespaceChar c then viMoveWordLoop mode dir fuel .ws r.1
          else (r.1, true)
        | .kw =>
          if isWhitespaceChar c then viMoveWordLoop mode dir fuel .ws r.1
          else if mode = .keyword ∧ ¬ is_vi_keyword c then (r.1, true)
          else viMoveWordLoop mode dir fuel .kw r.1
        | .nk =>
          if isWhitespaceChar c then viMoveWordLoop mode dir fuel .ws r.1
          else if mode = .keyword ∧ is_vi_keyword c then (r.1, true)
          else viMoveWordLoop mode dir fuel .nk r.1
    else (r.1, false)

/-- Rust `Buffer::vi_move_word`. -/
def Buffer.vi_move_word (b : Buffer) (mode : ViMoveMode) (dir : ViMoveDir) :
    Buffer × Bool :=
  match b.cp_after with
  | none => (b, false)
  | some c =>
    let st : WordState :=
      if isWhitespaceChar c then .ws
      else if is_vi_keyword c then .kw
      else .nk
    viMoveWordLoop mode dir (b.front_buf.length + b.pos.char_pos + 1) st b

/-- Rust `Buffer::move_word`. -/
def Buffer.move_word (b : Buffer) : Buffer × Bool :=
  b.vi_move_word .keyword .right

/-- Rust `Buffer::move_word_ws`. -/
def Buffer.move_word_ws (b : Buffer) : Buffer × Bool :=
  b.vi_move_word .whitespace .right

/-- Rust `Buffer::move_to_end_of_word_back`. -/
def Buffer.move_to_end_of_word_back (b : Buffer) : Buffer × Bool :=
  b.vi_move_word .keyword .left

/-- Rust `Buffer::move_to_end_of_word_ws_back`. -/
def Buffer.move_to_end_of_word_ws_back (b : Buffer) : Buffer × Bool :=
  b.vi_move_word .whitespace .left

/-- The local 4-valued `State` enum of Rust `Buffer::vi_move_word_end`. -/
inductive WordEndState where
  | ws
  | endOnWord
  | endOnOther
  | endOnWs
deriving DecidableEq

/-- The `while advance(self)` loop of Rust `Buffer::vi_move_word_end`. -/
def viMoveWordEndLoop (mode : ViMoveMode) (dir : ViMoveDir) :
    Nat → WordEndState → Buffer → Buffer × Bool
  | 0, _, b => (b, false)
  | fuel + 1, st, b =>
    let r := advance dir b
    if r.2 then
      match r.1.cp_after with
      | none => (r.1, false)
      | some c =>
        match st with
        | .ws =>
          if isWhitespaceChar c then viMoveWordEndLoop mode dir fuel .ws r.1
          else if mode = .keyword ∧ is_vi_keyword c then
            viMoveWordEndLoop mode dir fuel .endOnWord r.1
          else if mode = .whitespace then
            viMoveWordEndLoop mode dir fuel .endOnWs r.1
          else viMoveWordEndLoop mode dir fuel .endOnOther r.1
        | .endOnWord =>
          if ¬ is_vi_keyword c then ((goBack dir r.1).1, true)
          else viMoveWordEndLoop mode dir fuel .endOnWord r.1
        | .endOnWs =>
          if isWhitespaceChar c then ((goBack dir r.1).1, true)
          else viMoveWordEndLoop mode dir fuel .endOnWs r.1
        | .endOnOther =>
          if isWhitespaceChar c ∨ is_vi_keyword c then ((goBack dir r.1).1, true)
          else viMoveWordEndLoop mode dir fuel .endOnOther r.1
    else (r.1, false)

/-- Rust `Buffer::vi_move_word_end`. -/
def Buffer.vi_move_word_end (b : Buffer) (mode : ViMoveMode) (dir : ViMoveDir) :
    Buffer × Bool :=
  viMoveWordEndLoop mode dir (b.front_buf.length + b.pos.char_pos + 1) .ws b

/-- Rust `Buffer::move_to_end_of_word`. -/
def Buffer.move_to_end_of_word (b : Buffer) : Buffer × Bool :=
  b.vi_move_word_end .keyword .right

/-- Rust `Buffer::move_to_end_of_word_ws`. -/
def Buffer.move_to_end_of_word_ws (b : Buffer) : Buffer × Bool :=
  b.vi_move_word_end .whitespace .right

/-- Rust `Buffer::move_word_back`. -/
def Buffer.move_word_back (b : Buffer) : Buffer × Bool :=
  b.vi_move_word_end .keyword .left

/-- Rust `Buffer::move_word_ws_back`. -/
def Buffer.move_word_ws_back (b : Buffer) : Buffer × Bool :=
  b.vi_move_word_end .whitespace .left

/-- The `while advance(self)` loop of Rust `Buffer::move_to_char`. -/
def moveToCharLoop (target : Char) (dir : ViMoveDir) :
    Nat → Buffer → Buffer × Bool
  | 0, b => (b, false)
  | fuel + 1, b =>
    let r := advance dir b
    if r.2 then
      match r.1.cp_after with
      | none => (r.1, false)
      | some c => if c = target then (r.1, true) else moveToCharLoop target dir fuel r.1
    else (r.1, false)

/-- Rust `Buffer::move_to_char`. -/
def Buffer.move_to_char (b : Buffer) (target : Char) (dir : ViMoveDir) :
    Buffer × Bool :=
  moveToCharLoop target dir (b.front_buf.length + b.pos.char_pos + 1) b

/-- Rust `Buffer::move_end` composed with the bound check of
`Buffer::move_to_pos`. -/
def Buffer.move_to_pos (b : Buffer) (pos : Position) : Buffer × Bool :=
  if byteLen b.front_buf < pos.byte_pos then (b.move_end, false)
  else ({ b with pos := pos }, true)

/-- The `for _ in 0..count` loop of Rust `Buffer::move_to_char_right` /
`move_to_char_left` (without the restore-on-failure wrapper). -/
def moveToCharCountLoop (target : Char) (dir : ViMoveDir) :
    Nat → Buffer → Buffer × Bool
  | 0, b => (b, true)
  | n + 1, b =>
    let r := b.move_to_char target dir
    if r.2 then moveToCharCountLoop target dir n r.1 else (r.1, false)

/-- Rust `Buffer::move_to_char_right`. -/
def Buffer.move_to_char_right (b : Buffer) (target : Char) (count : Nat) :
    Buffer × Bool :=
  let pos := b.pos
  let r := moveToCharCountLoop target .right count b
  if r.2 then (r.1, true) else ((r.1.move_to_pos pos).1, false)

/-- Rust `Buffer::move_to_char_left`. -/
def Buffer.move_to_char_left (b : Buffer) (target : Char) (count : Nat) :
    Buffer × Bool :=
  let pos := b.pos
  let r := moveToCharCountLoop target .left count b
  if r.2 then (r.1, true) else ((r.1.move_to_pos pos).1, false)

/-- The `while self.pos > end_pos` loop of Rust `Buffer::delete_to_pos`, with
explicit fuel (each successful delete decreases `char_pos` by one; the
wrapper's fuel is sufficient at all states reachable from valid positions). -/
def deleteToPosLoop (endPos : Position) : Nat → Buffer → Buffer
  | 0, b => b
  | fuel + 1, b =>
    if posCmp b.pos endPos = .gt then
      deleteToPosLoop endPos fuel (b.delete_char_left_of_cursor).1
    else b

/-- Rust `Buffer::delete_to_pos`. -/
def Buffer.delete_to_pos (b : Buffer) (pos : Position) : Buffer :=
  match posCmp b.pos pos with
  | .eq => b
  | .lt =>
    let b1 := (b.move_to_pos pos).1
    deleteToPosLoop b.pos (b1.pos.char_pos + 1) b1
  | .gt =>
    let b1 := (b.move_to_pos b.pos).1
    deleteToPosLoop pos (b1.pos.char_pos + 1) b1

/-- Rust `Buffer::drain`: returns the extracted front text together with the
emptied buffer. -/
def Buffer.drain (b : Buffer) : Buffer × List Char :=
  ({ front_buf := [], back_buf := b.back_buf, pos := { byte_pos := 0, char_pos := 0 } },
   b.front_buf)

/-- Rust `Buffer::is_empty`. -/
def Buffer.is_empty (b : Buffer) : Bool :=
  b.front_buf.isEmpty

/-- Rust `Buffer::replace_chars_at_cursor`. -/
def Buffer.replace_chars_at_cursor (b : Buffer) (s : List Char) : Buffer :=
  let b1 := (b.delete_char_right_of_cursor).1
  let b2 := b1.insert_chars_at_cursor s
  { b2 with pos := b2.pos.decrease_by_str s }

/-- Rust struct `DeleteContext` (buffer.rs): records whether the motion
started on whitespace and the starting position; motions run through it
against `buf`. -/
structure DeleteContext where
  was_on_whitespace : Bool
  start_pos : Position
  buf : Buffer
deriving DecidableEq

/-- Rust `Buffer::start_delete` / `DeleteContext::new`. -/
def Buffer.start_delete (b : Buffer) : DeleteContext :=
  { was_on_whitespace :=
      match b.cp_after with
      | some c => isWhitespaceChar c
      | none => false,
    start_pos := b.pos,
    buf := b }

/-- Rust `DeleteContext::started_on_whitespace`. -/
def DeleteContext.started_on_whitespace (dc : DeleteContext) : Bool :=
  dc.was_on_whitespace

/-- Rust `DeleteContext::delete`. -/
def DeleteContext.delete (dc : DeleteContext) : Buffer :=
  dc.buf.delete_to_pos dc.start_pos

/-! Screen builder (builder.rs) and `Buffer::get_line`. -/

/-- UTF-8 encoding of one scalar value, byte by byte. -/
def utf8Bytes (c : Char) : List Nat :=
  let n := c.toNat
  if n < 0x80 then [n]
  else if n < 0x800 then [0xC0 + n / 0x40, 0x80 + n % 0x40]
  else if n < 0x10000 then
    [0xE0 + n / 0x1000, 0x80 + (n / 0x40) % 0x40, 0x80 + n % 0x40]
  else
    [0xF0 + n / 0x40000, 0x80 + (n / 0x1000) % 0x40, 0x80 + (n / 0x40) % 0x40,
     0x80 + n % 0x40]

/-- UTF-8 encoding of a string, Rust `str::as_bytes` via `Builder::append`. -/
def encodeUtf8 (s : List Char) : List Nat :=
  (s.map utf8Bytes).flatten

/-- Decimal digits (as bytes) of a natural number, with fuel. -/
def natDecimalAux : Nat → Nat → List Nat
  | 0, _ => []
  | fuel + 1, n => if n < 10 then [48 + n] else natDecimalAux fuel (n / 10) ++ [48 + n % 10]

/-- Decimal rendering of a natural number as ASCII bytes. -/
def natDecimal (n : Nat) : List Nat :=
  natDecimalAux (n + 1) n

/-- Rust `Builder::clear_screen` bytes. -/
def clearScreenBytes : List Nat := [27, 91, 72, 27, 91, 50, 74]

/-- Rust `Builder::erase_to_right` bytes. -/
def eraseRightBytes : List Nat := [27, 91, 48, 75]

/-- Rust `Builder::set_cursor_pos` bytes. -/
def setCursorPosBytes (n : Nat) : List Nat :=
  [13, 27, 91] ++ natDecimal n ++ [67]

/-- Rust `Buffer::get_line` (buffer.rs): optional clear-screen, carriage
return, prompt, text, erase-to-right, then reposition the cursor to column
`prompt.len() + self.char_pos()` (the prompt's byte length plus `char_pos`). -/
def Buffer.get_line (b : Buffer) (prompt : List Char) (clear : Bool) : List Nat :=
  (if clear then clearScreenBytes else []) ++ [13] ++ encodeUtf8 prompt ++
  encodeUtf8 b.front_buf ++ eraseRightBytes ++
  setCursorPosBytes (byteLen prompt + b.pos.char_pos)

/-! Byte/token parser (parser.rs). -/

/-- Rust enum `Token` (parser.rs). -/
inductive Token where
  | null
  | ctrlA
  | ctrlB
  | ctrlC
  | ctrlD
  | ctrlE
  | ctrlF
  | ctrlG
  | ctrlH
  | tab
  | ctrlJ
  | ctrlK
  | ctrlL
  | enter
  | ctrlN
  | ctrlO
  | ctrlP
  | ctrlQ
  | ctrlR
  | ctrlS
  | ctrlT
  | ctrlU
  | ctrlV
  | ctrlW
  | ctrlX
  | ctrlY
  | ctrlZ
  | esc
  | backspace
  | escBracket3T
  | escBracketA
  | escBracketB
  | escBracketC
  | escBracketD
  | escBracketH
  | escBracketF
  | text (s : List Char)
deriving DecidableEq

/-- Rust enum `ParseError` (parser.rs). -/
inductive ParseErr where
  | error (n : Nat)
  | incomplete
deriving DecidableEq

/-- Rust `ParseResult`: success carries the value and the number of bytes
consumed. -/
inductive PRes (α : Type) where
  | ok (t : α) (n : Nat)
  | err (e : ParseErr)
deriving DecidableEq

/-- The external encoding collaborator (the encoding crate's `raw_feed`):
given the pending bytes, the number of bytes consumed, the decoded text, and
whether decoding stopped on an invalid byte. -/
def Enc : Type := List Nat → Nat × List Char × Bool

/-- Helper for `asciiEnc`: greedy ASCII decoding. -/
def asciiEncGo : List Nat → Nat → List Char → Nat × List Char × Bool
  | [], n, acc => (n, acc.reverse, false)
  | b :: bs, n, acc =>
    if b < 128 then asciiEncGo bs (n + 1) (Char.ofNat b :: acc)
    else (n, acc.reverse, true)

/-- The ASCII codec used by the repository's tests (run.rs). -/
def asciiEnc : Enc := fun v => asciiEncGo v 0 []

/-- Rust `match_head` (parser.rs): the fixed single-byte control-code table. -/
def match_head (i : Nat) : Option Token :=
  match i with
  | 0 => some .null
  | 1 => some .ctrlA
  | 2 => some .ctrlB
  | 3 => some .ctrlC
  | 4 => some .ctrlD
  | 5 => some .ctrlE
  | 6 => some .ctrlF
  | 7 => some .ctrlG
  | 8 => some .ctrlH
  | 9 => some .tab
  | 10 => some .ctrlJ
  | 11 => some .ctrlK
  | 12 => some .ctrlL
  | 13 => some .enter
  | 14 => some .ctrlN
  | 15 => some .ctrlO
  | 16 => some .ctrlP
  | 17 => some .ctrlQ
  | 18 => some .ctrlR
  | 19 => some .ctrlS
  | 20 => some .ctrlT
  | 21 => some .ctrlU
  | 22 => some .ctrlV
  | 23 => some .ctrlW
  | 24 => some .ctrlX
  | 25 => some .ctrlY
  | 26 => some .ctrlZ
  | 27 => some .esc
  | 127 => some .backspace
  | _ => none

/-- Rust `parse_char` (parser.rs). -/
def parse_char (vec : List Nat) (off : Nat) : PRes Nat :=
  match vec[off]? with
  | none => .err .incomplete
  | some i => .ok i (off + 1)

/-- Rust `parse_esc_bracket` (parser.rs). -/
def parse_esc_bracket (vec : List Nat) : PRes Token :=
  match parse_char vec 2 with
  | .err e => .err e
  | .ok c _ =>
    if 48 ≤ c ∧ c ≤ 57 then
      match parse_char vec 3 with
      | .err e => .err e
      | .ok d _ =>
        if c = 51 ∧ d = 126 then .ok .escBracket3T 4 else .err (.error 4)
    else
      if c = 65 then .ok .escBracketA 3
      else if c = 66 then .ok .escBracketB 3
      else if c = 67 then .ok .escBracketC 3
      else if c = 68 then .ok .escBracketD 3
      else if c = 70 then .ok .escBracketF 3
      else if c = 72 then .ok .escBracketH 3
      else .err (.error 2)

/-- Rust `parse_esc` (parser.rs). -/
def parse_esc (vec : List Nat) : PRes Token :=
  match parse_char vec 1 with
  | .err e => .err e
  | .ok c _ => if c = 91 then parse_esc_bracket vec else .err (.error 2)

/-- Rust `parse` (parser.rs). -/
def parse (vec : List Nat) (enc : Enc) : PRes Token :=
  match parse_char vec 0 with
  | .err e => .err e
  | .ok i _ =>
    match match_head i with
    | some t => if t = .esc ∧ 1 < vec.length then parse_esc vec else .ok t 1
    | none =>
      let r := enc vec
      if r.2.2 then .err (.error r.1) else .ok (.text r.2.1) r.1

/-! Errors (error.rs), modes and instructions (edit.rs / instr.rs). -/

/-- Rust enum `Error` (error.rs), the variants reachable from the edit loop. -/
inductive Err where
  | cancel
  | endOfFile
  | parseError
deriving DecidableEq

/-- Rust enum `EditMode` (edit.rs). -/
inductive EditMode where
  | emacs
  | vi
deriving DecidableEq

/-- Rust enum `CharMoveType` (instr.rs). -/
inductive CharMoveType where
  | beforeRight
  | beforeLeft
  | right
  | left
deriving DecidableEq

/-- Rust enum `ViMode` (edit.rs). -/
inductive ViMode where
  | insert
  | normal
  | replaceMode
  | moveChar (t : CharMoveType)
  | deleteMoveChar (t : CharMoveType)
  | changeMoveChar (t : CharMoveType)
  | delete
  | change
deriving DecidableEq

/-- Rust enum `Instr` (instr.rs), flattened to the constructors matched by
`edit` in edit.rs (the nested `Common`/`History`/`MoveCursor` grouping is
inlined one-to-one). -/
inductive Instr where
  | done
  | doneOrEof
  | deleteCharLeftOfCursor
  | deleteCharRightOfCursor
  | deleteCharRightOfCursorOrEOF
  | deleteLine
  | deleteToEnd
  | changeLine
  | changeToEnd
  | moveCursorLeft
  | moveCursorRight
  | moveCursorStart
  | moveCursorEnd
  | historyPrev
  | historyNext
  | normalMode
  | replaceMode
  | moveCharMode (t : CharMoveType)
  | deleteMode
  | changeMode
  | insert
  | insertStart
  | append
  | appendEnd
  | digit (i : Nat)
  | moveEndOfWordRight
  | moveEndOfWordWsRight
  | moveWordRight
  | moveWordWsRight
  | moveWordLeft
  | moveWordWsLeft
  | moveCharRight (c : Char)
  | moveCharLeft (c : Char)
  | moveBeforeCharRight (c : Char)
  | moveBeforeCharLeft (c : Char)
  | substitute
  | noop
  | cancel
  | clear
  | insertAtCursor (s : List Char)
  | replaceAtCursor (s : List Char)
deriving DecidableEq

/-- Rust `emacs_mode` (instr.rs). -/
def emacs_mode (t : Token) : Instr :=
  match t with
  | .enter => .done
  | .backspace => .deleteCharLeftOfCursor
  | .ctrlH => .deleteCharLeftOfCursor
  | .escBracket3T => .deleteCharRightOfCursor
  | .ctrlD => .deleteCharRightOfCursorOrEOF
  | .escBracketA => .historyPrev
  | .ctrlP => .historyPrev
  | .escBracketB => .historyNext
  | .ctrlN => .historyNext
  | .escBracketC => .moveCursorRight
  | .ctrlF => .moveCursorRight
  | .escBracketD => .moveCursorLeft
  | .ctrlB => .moveCursorLeft
  | .ctrlA => .moveCursorStart
  | .escBracketH => .moveCursorStart
  | .ctrlE => .moveCursorEnd
  | .escBracketF => .moveCursorEnd
  | .text s => .insertAtCursor s
  | .ctrlC => .cancel
  | .ctrlL => .clear
  | _ => .noop

/-- Rust `vi_common` (instr.rs). -/
def vi_common (t : Token) : Instr :=
  match t with
  | .enter => .done
  | .ctrlD => .doneOrEof
  | .esc => .normalMode
  | .backspace => .deleteCharLeftOfCursor
  | .escBracket3T => .deleteCharRightOfCursor
  | .escBracketA => .historyPrev
  | .escBracketB => .historyNext
  | .escBracketC => .moveCursorRight
  | .escBracketD => .moveCursorLeft
  | .escBracketH => .moveCursorStart
  | .escBracketF => .moveCursorEnd
  | .ctrlC => .cancel
  | .ctrlL => .clear
  | _ => .noop

/-- Rust `vi_insert_mode` (instr.rs). -/
def vi_insert_mode (t : Token) : Instr :=
  match t with
  | .text s => .insertAtCursor s
  | _ => vi_common t

/-- Rust `vi_normal_mode` (instr.rs). -/
def vi_normal_mode (t : Token) : Instr :=
  match t with
  | .text s =>
    if s = ['h'] then .moveCursorLeft
    else if s = ['j'] then .historyNext
    else if s = ['k'] then .historyPrev
    else if s = ['l'] then .moveCursorRight
    else if s = ['0'] then .digit 0
    else if s = ['$'] then .moveCursorEnd
    else if s = ['x'] then .deleteCharRightOfCursor
    else if s = ['s'] then .substitute
    else if s = ['r'] then .replaceMode
    else if s = ['c'] then .changeMode
    else if s = ['C'] then .changeToEnd
    else if s = ['d'] then .deleteMode
    else if s = ['D'] then .deleteToEnd
    else if s = ['e'] then .moveEndOfWordRight
    else if s = ['E'] then .moveEndOfWordWsRight
    else if s = ['w'] then .moveWordRight
    else if s = ['W'] then .moveWordWsRight
    else if s = ['b'] then .moveWordLeft
    else if s = ['B'] then .moveWordWsLeft
    else if s = ['t'] then .moveCharMode .beforeRight
    else if s = ['T'] then .moveCharMode .beforeLeft
    else if s = ['f'] then .moveCharMode .right
    else if s = ['F'] then .moveCharMode .left
    else if s = ['a'] then .append
    else if s = ['A'] then .appendEnd
    else if s = ['i'] then .insert
    else if s = ['I'] then .insertStart
    else if s = ['1'] then .digit 1
    else if s = ['2'] then .digit 2
    else if s = ['3'] then .digit 3
    else if s = ['4'] then .digit 4
    else if s = ['5'] then .digit 5
    else if s = ['6'] then .digit 6
    else if s = ['7'] then .digit 7
    else if s = ['8'] then .digit 8
    else if s = ['9'] then .digit 9
    else .noop
  | _ => vi_common t

/-- Rust `vi_replace_mode` (instr.rs). -/
def vi_replace_mode (t : Token) : Instr :=
  match t with
  | .text s => .replaceAtCursor s
  | _ => .normalMode

/-- Rust `vi_move_char_mode` (instr.rs). -/
def vi_move_char_mode (mt : CharMoveType) (t : Token) : Instr :=
  match t with
  | .text s =>
    match s.head? with
    | some c =>
      match mt with
      | .beforeLeft => .moveBeforeCharLeft c
      | .beforeRight => .moveBeforeCharRight c
      | .left => .moveCharLeft c
      | .right => .moveCharRight c
    | none => .normalMode
  | _ => .normalMode

/-- Rust `vi_change_delete_common` (instr.rs). -/
def vi_change_delete_common (t : Token) : Instr :=
  match t with
  | .text s =>
    if s = ['h'] then .moveCursorLeft
    else if s = ['l'] then .moveCursorRight
    else if s = ['0'] then .digit 0
    else if s = ['$'] then .moveCursorEnd
    else if s = ['e'] then .moveEndOfWordRight
    else if s = ['E'] then .moveEndOfWordWsRight
    else if s = ['w'] then .moveWordRight
    else if s = ['W'] then .moveWordWsRight
    else if s = ['b'] then .moveWordLeft
    else if s = ['B'] then .moveWordWsLeft
    else if s = ['t'] then .moveCharMode .beforeRight
    else if s = ['T'] then .moveCharMode .beforeLeft
    else if s = ['f'] then .moveCharMode .right
    else if s = ['F'] then .moveCharMode .left
    else if s = ['1'] then .digit 1
    else if s = ['2'] then .digit 2
    else if s = ['3'] then .digit 3
    else if s = ['4'] then .digit 4
    else if s = ['5'] then .digit 5
    else if s = ['6'] then .digit 6
    else if s = ['7'] then .digit 7
    else if s = ['8'] then .digit 8
    else if s = ['9'] then .digit 9
    else .normalMode
  | _ => .normalMode

/-- Rust `vi_change_mode` (instr.rs). -/
def vi_change_mode (t : Token) : Instr :=
  match t with
  | .text s => if s = ['c'] then .changeLine else vi_change_delete_common t
  | _ => .normalMode

/-- Rust `vi_delete_mode` (instr.rs). -/
def vi_delete_mode (t : Token) : Instr :=
  match t with
  | .text s => if s = ['d'] then .deleteLine else vi_change_delete_common t
  | _ => .normalMode

/-- Rust `interpret_token` (instr.rs), dispatched on the edit mode and the
Vi sub-mode as consumed by `edit` in edit.rs. -/
def interpret_token (t : Token) (mode : EditMode) (vm : ViMode) : Instr :=
  match mode with
  | .emacs => emacs_mode t
  | .vi =>
    match vm with
    | .insert => vi_insert_mode t
    | .normal => vi_normal_mode t
    | .replaceMode => vi_replace_mode t
    | .moveChar mt => vi_move_char_mode mt t
    | .deleteMoveChar mt => vi_move_char_mode mt t
    | .changeMoveChar mt => vi_move_char_mode mt t
    | .delete => vi_delete_mode t
    | .change => vi_change_mode t

/-! History list and cursor (history.rs). -/

/-- Rust `History::push` (history.rs): prepend unless the line is empty or
equal to the current front entry. -/
def History.push (hist : List (List Char)) (s : List Char) : List (List Char) :=
  if 0 < s.length ∧ hist.head? ≠ some s then s :: hist else hist

/-- Rust `History::get` (history.rs). -/
def History.get (hist : List (List Char)) (idx : Nat) : Option (List Char) :=
  if 0 < hist.length ∧ idx < hist.length then hist[idx]? else none

/-- Rust `Cursor::incr` (history.rs): the new cursor and the `flag` result. -/
def Cursor.incr (hist : List (List Char)) : Option Nat → Option Nat × Bool
  | some i => if i + 1 < hist.length then (some (i + 1), false) else (some i, false)
  | none => if 0 < hist.length then (some 0, true) else (none, false)

/-- Rust `Cursor::decr` (history.rs). -/
def Cursor.decr : Option Nat → Option Nat × Bool
  | some i => if 0 < i then (some (i - 1), false) else (none, true)
  | none => (none, false)

/-- Rust `Cursor::get` (history.rs). -/
def Cursor.get (hist : List (List Char)) : Option Nat → Option (List Char)
  | none => none
  | some i => History.get hist i

/-! The edit state machine (edit.rs). -/

/-- Maximum value of the `u32` repeat counter. -/
def u32Max : Nat := 4294967295

/-- Rust struct `EditCtx` (edit.rs); the encoding is passed separately so
that the state stays first-order. -/
structure EditCtx where
  buf : Buffer
  histCur : Option Nat
  history : List (List Char)
  prompt : List Char
  seq : List Nat
  mode : EditMode
  vi_mode : ViMode
  vi_count : Nat
deriving DecidableEq

/-- Rust `EditCtx::new` (edit.rs): empty buffer, no history selection, Insert. -/
def EditCtx.new (prompt : List Char) (history : List (List Char)) (mode : EditMode) :
    EditCtx :=
  { buf := Buffer.new, histCur := none, history := history, prompt := prompt,
    seq := [], mode := mode, vi_mode := .insert, vi_count := 0 }

/-- The `set_next_vi_mode!` macro of edit.rs. -/
def nextViMode : ViMode → ViMode
  | .delete => .normal
  | .change => .insert
  | .deleteMoveChar _ => .normal
  | .changeMoveChar _ => .insert
  | _ => .normal

/-- Rust `EditCtx::exclude_eol` (edit.rs): only in Vi normal mode. -/
def EditCtx.exclude_eol (ctx : EditCtx) : EditCtx :=
  if ctx.vi_mode = .normal then { ctx with buf := (ctx.buf.exclude_eol).1 } else ctx

/-- The `for` loop inside the one-argument `vi_repeat!` macro (edit.rs). -/
def viRepeatLoop {σ : Type} (op : σ → σ × Bool) : Nat → σ → σ
  | 0, s => s
  | n + 1, s =>
    let r := op s
    if r.2 then viRepeatLoop op n r.1 else r.1

/-- The one-argument `vi_repeat!` macro (edit.rs): run once when the count is
zero, else up to `count` times stopping at the first failure. -/
def viRepeat {σ : Type} (count : Nat) (op : σ → σ × Bool) (s : σ) : σ :=
  match count with
  | 0 => (op s).1
  | n + 1 => viRepeatLoop op (n + 1) s

/-- The inner loop of the two-argument `vi_repeat!` macro (edit.rs). -/
def viRepeatStepLoop {σ : Type} (op step : σ → σ × Bool) : Nat → σ → σ
  | 0, s => s
  | n + 1, s =>
    let r := step s
    if r.2 then
      let r2 := op r.1
      if r2.2 then viRepeatStepLoop op step n r2.1 else r2.1
    else r.1

/-- The two-argument `vi_repeat!` macro (edit.rs): the operation once, then
`count - 1` rounds of step-then-operation, stopping at the first failure. -/
def viRepeatStep {σ : Type} (count : Nat) (op step : σ → σ × Bool) (s : σ) : σ :=
  match count with
  | 0 => (op s).1
  | n + 1 =>
    let r := op s
    if r.2 then viRepeatStepLoop op step n r.1 else r.1

/-- A buffer motion lifted through a `DeleteContext` (the Rust code reaches
the buffer through `DerefMut`). -/
def dcMotion (op : Buffer → Buffer × Bool) (dc : DeleteContext) : DeleteContext × Bool :=
  let r := op dc.buf
  ({ dc with buf := r.1 }, r.2)

/-- The `vi_delete!` macro (edit.rs): repeat a motion through a fresh
`DeleteContext`, commit the deletion in Delete/Change mode, then apply the
standard mode transition. -/
def viDelete (ctx : EditCtx) (op : Buffer → Buffer × Bool) : EditCtx :=
  let dc := ctx.buf.start_delete
  let dc1 := viRepeat ctx.vi_count (dcMotion op) dc
  let buf :=
    match ctx.vi_mode with
    | .delete => dc1.delete
    | .change => dc1.delete
    | _ => dc1.buf
  { ctx with buf := buf, vi_count := 0, vi_mode := nextViMode ctx.vi_mode }

/-- The history-browsing block of the `Instr::HistoryPrev` arm (edit.rs). -/
def historyPrevOp (ctx : EditCtx) : EditCtx × Bool :=
  let r := Cursor.incr ctx.history ctx.histCur
  let b1 := if r.2 then ctx.buf.swap else ctx.buf
  let b2 :=
    match Cursor.get ctx.history r.1 with
    | some s => b1.replace s
    | none => b1
  ({ ctx with histCur := r.1, buf := b2 }, r.2)

/-- The history-browsing block of the `Instr::HistoryNext` arm (edit.rs). -/
def historyNextOp (ctx : EditCtx) : EditCtx × Bool :=
  let r := Cursor.decr ctx.histCur
  let b1 := if r.2 then ctx.buf.swap else ctx.buf
  let b2 :=
    match Cursor.get ctx.history r.1 with
    | some s => b1.replace s
    | none => b1
  ({ ctx with histCur := r.1, buf := b2 }, r.2)

/-- Result of the current line-read. -/
inductive LineResult where
  | ok (s : List Char)
  | err (e : Err)
deriving DecidableEq

/-- The intermediate result of one `edit` cycle (edit.rs), before the
continue case is rendered into redraw bytes. -/
inductive ERes where
  | cont (clear : Bool) (ctx : EditCtx)
  | halt (r : LineResult) (ctx : EditCtx)
deriving DecidableEq

/-- The instruction dispatch of Rust `edit` (edit.rs, the big `match` over
`instr::interpret_token`), arm for arm. -/
def applyInstr (i : Instr) (ctx : EditCtx) : ERes :=
  match i with
  | .done =>
    let r := ctx.buf.drain
    .halt (.ok r.2) { ctx with buf := r.1 }
  | .doneOrEof =>
    if ctx.buf.is_empty then .halt (.err .endOfFile) ctx
    else
      let r := ctx.buf.drain
      .halt (.ok r.2) { ctx with buf := r.1 }
  | .deleteCharLeftOfCursor =>
    .cont false { ctx with buf := viRepeat ctx.vi_count Buffer.delete_char_left_of_cursor ctx.buf,
                           vi_count := 0 }
  | .deleteCharRightOfCursor =>
    .cont false ({ ctx with buf := viRepeat ctx.vi_count Buffer.delete_char_right_of_cursor ctx.buf,
                            vi_count := 0 }).exclude_eol
  | .deleteCharRightOfCursorOrEOF =>
    let r := ctx.buf.delete_char_right_of_cursor
    if r.2 then .cont false { ctx with buf := r.1 }
    else .halt (.err .endOfFile) { ctx with buf := r.1 }
  | .deleteLine =>
    .cont false { ctx with buf := (ctx.buf.drain).1, vi_mode := .normal, vi_count := 0 }
  | .deleteToEnd =>
    .cont false (viDelete { ctx with vi_count := 0, vi_mode := .delete }
      (fun b => (b.move_end, false))).exclude_eol
  | .changeLine =>
    .cont false { ctx with buf := (ctx.buf.drain).1, vi_mode := .insert, vi_count := 0 }
  | .changeToEnd =>
    .cont false (viDelete { ctx with vi_count := 0, vi_mode := .change }
      (fun b => (b.move_end, false))).exclude_eol
  | .moveCursorLeft =>
    .cont false (viDelete ctx Buffer.move_left)
  | .moveCursorRight =>
    .cont false (viDelete ctx Buffer.move_right).exclude_eol
  | .moveCursorStart =>
    let c0 := { ctx with vi_count := 0 }
    let dc := c0.buf.start_delete
    let dc1 := { dc with buf := dc.buf.move_start }
    if c0.vi_mode = .delete ∨ c0.vi_mode = .change then
      .cont false { c0 with buf := dc1.delete, vi_mode := nextViMode c0.vi_mode }
    else
      .cont false { c0 with buf := dc1.buf }
  | .moveCursorEnd =>
    .cont false (viDelete { ctx with vi_count := 0 }
      (fun b => (b.move_end, false))).exclude_eol
  | .historyPrev =>
    let c1 := viRepeat ctx.vi_count historyPrevOp ctx
    .cont false { c1 with vi_count := 0 }
  | .historyNext =>
    let c1 := viRepeat ctx.vi_count historyNextOp ctx
    .cont false { c1 with vi_count := 0 }
  | .normalMode =>
    let b := if ctx.vi_mode = .insert then (ctx.buf.move_left).1 else ctx.buf
    .cont false { ctx with buf := b, vi_mode := .normal, vi_count := 0 }
  | .replaceMode =>
    .cont false { ctx with vi_mode := .replaceMode }
  | .moveCharMode mt =>
    let vm :=
      match ctx.vi_mode with
      | .delete => ViMode.deleteMoveChar mt
      | .change => ViMode.changeMoveChar mt
      | _ => ViMode.moveChar mt
    .cont false { ctx with vi_mode := vm }
  | .deleteMode =>
    .cont false { ctx with vi_mode := .delete }
  | .changeMode =>
    .cont false { ctx with vi_mode := .change }
  | .insert =>
    .cont false { ctx with vi_mode := .insert }
  | .insertStart =>
    .cont false { ctx with vi_mode := .insert, buf := ctx.buf.move_start }
  | .append =>
    .cont false { ctx with vi_mode := .insert, buf := (ctx.buf.move_right).1 }
  | .appendEnd =>
    .cont false { ctx with vi_mode := .insert, buf := ctx.buf.move_end }
  | .digit d =>
    match ctx.vi_count, d with
    | 0, 0 => .cont false (viDelete ctx (fun b => (b.move_start, false)))
    | _, _ =>
      .cont false { ctx with vi_count :=
        if ctx.vi_count ≤ (u32Max - d) / 10 then ctx.vi_count * 10 + d
        else ctx.vi_count }
  | .moveEndOfWordRight =>
    let dc := ctx.buf.start_delete
    let dc1 := viRepeat ctx.vi_count (dcMotion Buffer.move_to_end_of_word) dc
    let c1 :=
      if ctx.vi_mode = .delete ∨ ctx.vi_mode = .change then
        { ctx with buf := ({ dc1 with buf := (dc1.buf.move_right).1 }).delete,
                   vi_count := 0, vi_mode := nextViMode ctx.vi_mode }
      else { ctx with buf := dc1.buf, vi_count := 0 }
    .cont false c1.exclude_eol
  | .moveEndOfWordWsRight =>
    let dc := ctx.buf.start_delete
    let dc1 := viRepeat ctx.vi_count (dcMotion Buffer.move_to_end_of_word_ws) dc
    let c1 :=
      if ctx.vi_mode = .delete ∨ ctx.vi_mode = .change then
        { ctx with buf := ({ dc1 with buf := (dc1.buf.move_right).1 }).delete,
                   vi_count := 0, vi_mode := nextViMode ctx.vi_mode }
      else { ctx with buf := dc1.buf, vi_count := 0 }
    .cont false c1.exclude_eol
  | .moveWordRight =>
    let dc := ctx.buf.start_delete
    let dc1 := viRepeat ctx.vi_count (dcMotion Buffer.move_word) dc
    let buf :=
      match ctx.vi_mode with
      | .delete => dc1.delete
      | .change =>
        let b2 :=
          if dc1.started_on_whitespace then dc1.buf
          else
            let r := dc1.buf.move_right
            if r.2 then ((r.1.move_to_end_of_word_back).1.move_right).1
            else r.1
        ({ dc1 with buf := b2 }).delete
      | _ => dc1.buf
    .cont false ({ ctx with buf := buf, vi_count := 0, vi_mode := nextViMode ctx.vi_mode }).exclude_eol
  | .moveWordWsRight =>
    let dc := ctx.buf.start_delete
    let dc1 := viRepeat ctx.vi_count (dcMotion Buffer.move_word_ws) dc
    let buf :=
      match ctx.vi_mode with
      | .delete => dc1.delete
      | .change =>
        let b2 :=
          if dc1.started_on_whitespace then dc1.buf
          else
            let r := dc1.buf.move_right
            if r.2 then ((r.1.move_to_end_of_word_ws_back).1.move_right).1
            else r.1
        ({ dc1 with buf := b2 }).delete
      | _ => dc1.buf
    .cont false ({ ctx with buf := buf, vi_count := 0, vi_mode := nextViMode ctx.vi_mode }).exclude_eol
  | .moveWordLeft =>
    .cont false (viDelete ctx Buffer.move_word_back)
  | .moveWordWsLeft =>
    .cont false (viDelete ctx Buffer.move_word_ws_back)
  | .moveCharRight c =>
    let count := match ctx.vi_count with | 0 => 1 | n => n
    let dc := ctx.buf.start_delete
    let r := dc.buf.move_to_char_right c count
    let dc1 := { dc with buf := r.1 }
    let buf :=
      match ctx.vi_mode with
      | .deleteMoveChar _ => ({ dc1 with buf := (dc1.buf.move_right).1 }).delete
      | .changeMoveChar _ => ({ dc1 with buf := (dc1.buf.move_right).1 }).delete
      | _ => dc1.buf
    .cont false ({ ctx with buf := buf, vi_count := 0, vi_mode := nextViMode ctx.vi_mode }).exclude_eol
  | .moveCharLeft c =>
    let count := match ctx.vi_count with | 0 => 1 | n => n
    let dc := ctx.buf.start_delete
    let r := dc.buf.move_to_char_left c count
    let dc1 := { dc with buf := r.1 }
    let buf :=
      match ctx.vi_mode with
      | .deleteMoveChar _ => dc1.delete
      | .changeMoveChar _ => dc1.delete
      | _ => dc1.buf
    .cont false { ctx with buf := buf, vi_count := 0, vi_mode := nextViMode ctx.vi_mode }
  | .moveBeforeCharRight c =>
    let count := match ctx.vi_count with | 0 => 1 | n => n
    let dc := ctx.buf.start_delete
    let r := dc.buf.move_to_char_right c count
    let buf :=
      if r.2 then
        let b1 := (r.1.move_left).1
        match ctx.vi_mode with
        | .deleteMoveChar _ => ({ dc with buf := (b1.move_right).1 }).delete
        | .changeMoveChar _ => ({ dc with buf := (b1.move_right).1 }).delete
        | _ => b1
      else r.1
    .cont false { ctx with buf := buf, vi_count := 0, vi_mode := nextViMode ctx.vi_mode }
  | .moveBeforeCharLeft c =>
    let count := match ctx.vi_count with | 0 => 1 | n => n
    let dc := ctx.buf.start_delete
    let r := dc.buf.move_to_char_left c count
    let buf :=
      if r.2 then
        let b1 := (r.1.move_right).1
        match ctx.vi_mode with
        | .deleteMoveChar _ => ({ dc with buf := b1 }).delete
        | .changeMoveChar _ => ({ dc with buf := b1 }).delete
        | _ => b1
      else r.1
    .cont false { ctx with buf := buf, vi_count := 0, vi_mode := nextViMode ctx.vi_mode }
  | .substitute =>
    .cont false { ctx with buf := viRepeat ctx.vi_count Buffer.delete_char_right_of_cursor ctx.buf,
                           vi_count := 0, vi_mode := .insert }
  | .noop => .cont false ctx
  | .cancel => .halt (.err .cancel) ctx
  | .clear => .cont true ctx
  | .insertAtCursor s =>
    .cont false { ctx with buf := ctx.buf.insert_chars_at_cursor s }
  | .replaceAtCursor s =>
    let op : EditCtx → EditCtx × Bool := fun c =>
      ({ c with buf := c.buf.replace_chars_at_cursor s }, true)
    let step : EditCtx → EditCtx × Bool := fun c =>
      let b1 := (c.buf.move_right).1
      let r := b1.exclude_eol
      ({ c with buf := r.1 }, r.2)
    let c1 := viRepeatStep ctx.vi_count op step ctx
    .cont false { c1 with vi_count := 0, vi_mode := .normal }

/-- Result of one full `edit` cycle (edit.rs): continue with the rendered
redraw bytes, or halt with the line-read result. -/
inductive EditStep where
  | cont (line : List Nat) (ctx : EditCtx)
  | halt (r : LineResult) (ctx : EditCtx)
deriving DecidableEq

/-- Rust `edit` (edit.rs): parse the pending bytes, interpret the token,
apply the instruction, drop the consumed bytes, render. -/
def editStep (enc : Enc) (ctx : EditCtx) : EditStep :=
  match parse ctx.seq enc with
  | .err (.error len) =>
    let c1 := { ctx with seq := ctx.seq.drop len }
    .cont (c1.buf.get_line c1.prompt false) c1
  | .err .incomplete =>
    .cont (ctx.buf.get_line ctx.prompt false) ctx
  | .ok token len =>
    match applyInstr (interpret_token token ctx.mode ctx.vi_mode) ctx with
    | .halt r c1 => .halt r { c1 with seq := c1.seq.drop len }
    | .cont clear c1 =>
      let c2 := { c1 with seq := c1.seq.drop len }
      .cont (c2.buf.get_line c2.prompt clear) c2

/-- Rust `run_edit` (run.rs) against the test I/O that feeds one byte per
prompt round trip and answers end-of-file when the input is exhausted; the
fuel bounds the number of cycles. -/
def runEdit (enc : Enc) : Nat → EditCtx → List Nat → LineResult
  | 0, _, _ => .err .parseError
  | fuel + 1, ctx, input =>
    match editStep enc ctx with
    | .halt r _ => r
    | .cont _ c1 =>
      match input with
      | [] => .err .endOfFile
      | b :: rest => runEdit enc fuel { c1 with seq := c1.seq ++ [b] } rest

/-! Specification vocabulary used to state the claims. -/

/-- The grapheme-boundary position with char index `k` in text `xs`. -/
def posAt (xs : List Char) (k : Nat) : Position :=
  { byte_pos := byteLen (xs.take k), char_pos := k }

/-- A buffer whose cursor sits at grapheme index `k`. -/
def bufAt (xs back : List Char) (k : Nat) : Buffer :=
  { front_buf := xs, back_buf := back, pos := posAt xs k }

/-- Index `t` holds the first occurrence of `c` strictly right of index `k`. -/
def FirstRight (xs : List Char) (c : Char) (k t : Nat) : Prop :=
  k < t ∧ t < xs.length ∧ xs[t]? = some c ∧
  ∀ r, k < r → r < t → xs[r]? ≠ some c

/-- Index `t` holds the `n`-th occurrence of `c` scanning right from `k`. -/
def NthRight (xs : List Char) (c : Char) : Nat → Nat → Nat → Prop
  | k, 0, t => t = k
  | k, n + 1, t => ∃ m, FirstRight xs c k m ∧ NthRight xs c m n t

/-- Index `t` holds the first occurrence of `c` strictly left of index `k`. -/
def FirstLeft (xs : List Char) (c : Char) (k t : Nat) : Prop :=
  t < k ∧ xs[t]? = some c ∧
  ∀ r, t < r → r < k → xs[r]? ≠ some c

/-- Index `t` holds the `n`-th occurrence of `c` scanning left from `k`. -/
def NthLeft (xs : List Char) (c : Char) : Nat → Nat → Nat → Prop
  | k, 0, t => t = k
  | k, n + 1, t => ∃ m, FirstLeft xs c k m ∧ NthLeft xs c m n t

/-- Replay of the repository's own test `move_and_insert_cjk` (buffer.rs):
the exact sequence of buffer operations performed by the test. -/
def cjkTestBuffer : Buffer :=
  let b0 := Buffer.new.insert_char_at_cursor '䩖'
  let b1 := (b0.move_left).1.insert_char_at_cursor '䨻'
  let b2 := ((((b1.move_left).1.move_right).1.move_right).1).insert_char_at_cursor '䦴'
  let b3 := (b2.move_start).insert_char_at_cursor '乫'
  let b4 := (b3.move_end).insert_char_at_cursor '憛'
  let b5 := ((b4.move_left).1.move_left).1
  ((b5.delete_char_left_of_cursor).1)

/-! Basic lemmas about byte lengths and valid cursor positions. -/

theorem charUtf8Len_pos (c : Char) : 1 ≤ charUtf8Len c := by
  simp only [charUtf8Len]
  split
  · omega
  split
  · omega
  split <;> omega

theorem byteLen_append (l r : List Char) : byteLen (l ++ r) = byteLen l + byteLen r := by
  induction l with
  | nil => simp [byteLen]
  | cons x xs ih => simp [byteLen, ih]; omega

theorem length_le_byteLen (l : List Char) : l.length ≤ byteLen l := by
  induction l with
  | nil => simp [byteLen]
  | cons x xs ih =>
    have := charUtf8Len_pos x
    simp [byteLen]
    omega

theorem getElem?_some_of_lt {α : Type} {l : List α} {n : Nat} (h : n < l.length) :
    ∃ x, l[n]? = some x ∧ x ∈ l := by
  refine ⟨l[n], ?_, ?_⟩
  · exact List.getElem?_eq_getElem h
  · exact List.getElem_mem h

theorem byteLen_take_succ {xs : List Char} {k : Nat} {c : Char} (h : xs[k]? = some c) :
    byteLen (xs.take (k + 1)) = byteLen (xs.take k) + charUtf8Len c := by
  rw [List.take_succ, h]
  simp [byteLen_append, byteLen]

theorem take_succ_of_getElem {xs : List Char} {k : Nat} {c : Char} (h : xs[k]? = some c) :
    xs.take (k + 1) = xs.take k ++ [c] := by
  rw [List.take_succ, h]
  rfl

theorem byteLen_take_succ_le (xs : List Char) (k : Nat) :
    byteLen (xs.take k) ≤ byteLen (xs.take (k + 1)) := by
  rw [List.take_succ, byteLen_append]
  omega

theorem byteLen_take_mono (xs : List Char) {k m : Nat} (h : k ≤ m) :
    byteLen (xs.take k) ≤ byteLen (xs.take m) := by
  induction m with
  | zero => simp_all
  | succ n ih =>
    rcases Nat.lt_or_ge k (n + 1) with h1 | h1
    · exact le_trans (ih (by omega)) (byteLen_take_succ_le xs n)
    · have : k = n + 1 := by omega
      subst this; exact le_rfl

theorem byteLen_take_lt (xs : List Char) {k m : Nat} (h : k < m) (hm : m ≤ xs.length) :
    byteLen (xs.take k) < byteLen (xs.take m) := by
  have hk : k < xs.length := by omega
  obtain ⟨c, hc, _⟩ := getElem?_some_of_lt hk
  have h1 := byteLen_take_succ hc
  have h2 := byteLen_take_mono xs (show k + 1 ≤ m by omega)
  have := charUtf8Len_pos c
  omega

theorem byteLen_take_le (xs : List Char) (k : Nat) :
    byteLen (xs.take k) ≤ byteLen xs := by
  conv_rhs => rw [← List.take_append_drop k xs]
  rw [byteLen_append]
  omega

theorem removeAtByte_append (p : List Char) (c : Char) (r : List Char) :
    removeAtByte (p ++ c :: r) (byteLen p) = p ++ r := by
  induction p with
  | nil => simp [removeAtByte, byteLen]
  | cons x xs ih =>
    have h1 := charUtf8Len_pos x
    simp only [List.cons_append, removeAtByte, byteLen]
    rw [if_neg (by omega)]
    rw [show charUtf8Len x + byteLen xs - charUtf8Len x = byteLen xs by omega]
    simp only [List.append_eq]
    rw [ih]

/-! Lemmas about single cursor steps at grapheme-boundary positions. -/

theorem cp_after_bufAt (xs back : List Char) (k : Nat) :
    (bufAt xs back k).cp_after = xs[k]? := rfl

theorem move_right_bufAt {xs : List Char} {k : Nat} {c : Char} (back : List Char)
    (h : xs[k]? = some c) :
    (bufAt xs back k).move_right = (bufAt xs back (k + 1), true) := by
  simp only [Buffer.move_right, Buffer.next_pos, bufAt, posAt, h]
  rw [byteLen_take_succ h]

theorem move_right_bufAt_none {xs : List Char} {k : Nat} (back : List Char)
    (h : xs[k]? = none) :
    (bufAt xs back k).move_right = (bufAt xs back k, false) := by
  simp only [Buffer.move_right, Buffer.next_pos, bufAt, posAt, h]

theorem move_left_bufAt {xs : List Char} {k : Nat} {c : Char} (back : List Char)
    (h : xs[k]? = some c) :
    (bufAt xs back (k + 1)).move_left = (bufAt xs back k, true) := by
  simp only [Buffer.move_left, Buffer.prev_pos, bufAt, posAt]
  rw [if_neg (by omega)]
  simp only [Nat.add_sub_cancel, h]
  rw [byteLen_take_succ h]
  simp

theorem move_left_bufAt_zero (xs back : List Char) :
    (bufAt xs back 0).move_left = (bufAt xs back 0, false) := by
  simp [Buffer.move_left, Buffer.prev_pos, bufAt, posAt]

/-! Lemmas about the position comparison. -/

theorem posCmp_self (p : Position) : posCmp p p = .eq := by
  simp [posCmp]

theorem posCmp_posAt_lt {xs : List Char} {k m : Nat} (h : k < m) (hm : m ≤ xs.length) :
    posCmp (posAt xs k) (posAt xs m) = .lt := by
  have := byteLen_take_lt xs h hm
  simp only [posCmp, posAt]
  rw [if_pos this]

theorem posCmp_posAt_gt {xs : List Char} {k m : Nat} (h : m < k) (hk : k ≤ xs.length) :
    posCmp (posAt xs k) (posAt xs m) = .gt := by
  have := byteLen_take_lt xs h hk
  simp only [posCmp, posAt]
  rw [if_neg (by omega), if_pos this]

/-! Characterization of `delete_to_pos` between grapheme-boundary positions. -/

theorem deleteToPosLoop_stage (xs back : List Char) (i M : Nat) (hM : M ≤ xs.length) :
    ∀ d fuel, i + d ≤ M →
    deleteToPosLoop (posAt xs i) (d + 1 + fuel)
      { front_buf := xs.take (i + d) ++ xs.drop M, back_buf := back, pos := posAt xs (i + d) }
      = { front_buf := xs.take i ++ xs.drop M, back_buf := back, pos := posAt xs i } := by
  intro d
  induction d with
  | zero =>
    intro fuel _
    rw [show 0 + 1 + fuel = fuel + 1 from by omega]
    simp only [deleteToPosLoop, Nat.add_zero]
    rw [if_neg (by rw [posCmp_self]; simp)]
  | succ d ih =>
    intro fuel hd
    rw [show d + 1 + 1 + fuel = (d + 1 + fuel) + 1 from by omega]
    simp only [deleteToPosLoop]
    have hgt : posCmp (posAt xs (i + (d + 1))) (posAt xs i) = .gt :=
      posCmp_posAt_gt (by omega) (by omega)
    rw [if_pos hgt]
    have hcd : i + d < xs.length := by omega
    obtain ⟨c, hc, _⟩ := getElem?_some_of_lt hcd
    have hfront : xs.take (i + (d + 1)) ++ xs.drop M
        = xs.take (i + d) ++ c :: xs.drop M := by
      rw [show i + (d + 1) = (i + d) + 1 from by omega, take_succ_of_getElem hc]
      simp
    have hmove : (Buffer.move_left
        { front_buf := xs.take (i + (d + 1)) ++ xs.drop M, back_buf := back,
          pos := posAt xs (i + (d + 1)) })
        = ({ front_buf := xs.take (i + (d + 1)) ++ xs.drop M, back_buf := back,
             pos := posAt xs (i + d) }, true) := by
      simp only [Buffer.move_left, Buffer.prev_pos, posAt]
      rw [if_neg (by omega)]
      have hget : (xs.take (i + (d + 1)) ++ xs.drop M)[i + (d + 1) - 1]? = some c := by
        rw [show i + (d + 1) - 1 = i + d from by omega]
        rw [List.getElem?_append_left (by rw [List.length_take]; omega)]
        rw [List.getElem?_take_of_lt (by omega)]
        exact hc
      rw [hget]
      rw [show i + (d + 1) = (i + d) + 1 from by omega, byteLen_take_succ hc]
      simp
    simp only [Buffer.delete_char_left_of_cursor, hmove, if_true]
    have hremove : removeAtByte (xs.take (i + (d + 1)) ++ xs.drop M)
        (byteLen (xs.take (i + d))) = xs.take (i + d) ++ xs.drop M := by
      rw [hfront]
      exact removeAtByte_append _ _ _
    simp only [posAt] at hremove ⊢
    rw [hremove]
    exact ih fuel (by omega)

theorem delete_to_pos_valid (xs back : List Char) (k m : Nat)
    (hk : k ≤ xs.length) (hm : m ≤ xs.length) :
    (bufAt xs back m).delete_to_pos (posAt xs k)
      = { front_buf := xs.take (min k m) ++ xs.drop (max k m), back_buf := back,
          pos := posAt xs (min k m) } := by
  rcases Nat.lt_trichotomy m k with h | h | h
  · -- cursor strictly left of the target: the Less branch
    have hcmp : posCmp (posAt xs m) (posAt xs k) = .lt := posCmp_posAt_lt h hk
    rw [min_eq_right (le_of_lt h), max_eq_left (le_of_lt h)]
    simp only [Buffer.delete_to_pos, bufAt, hcmp]
    simp only [Buffer.move_to_pos, posAt]
    rw [if_neg (by have := byteLen_take_le xs k; omega)]
    have hstage := deleteToPosLoop_stage xs back m k hk (k - m) m (by omega)
    rw [show m + (k - m) = k from by omega] at hstage
    rw [List.take_append_drop] at hstage
    simp only [posAt] at hstage
    rw [show k + 1 = (k - m) + 1 + m from by omega]
    exact hstage
  · -- equal positions: nothing to delete
    subst h
    rw [Nat.min_self, Nat.max_self]
    simp only [Buffer.delete_to_pos, bufAt, posCmp_self]
    rw [List.take_append_drop]
  · -- cursor strictly right of the target: the Greater branch
    have hcmp : posCmp (posAt xs m) (posAt xs k) = .gt := posCmp_posAt_gt h hm
    rw [min_eq_left (le_of_lt h), max_eq_right (le_of_lt h)]
    simp only [Buffer.delete_to_pos, bufAt, hcmp]
    simp only [Buffer.move_to_pos, posAt]
    rw [if_neg (by have := byteLen_take_le xs m; omega)]
    have hstage := deleteToPosLoop_stage xs back k m hm (m - k) k (by omega)
    rw [show k + (m - k) = m from by omega] at hstage
    rw [List.take_append_drop] at hstage
    simp only [posAt] at hstage
    rw [show m + 1 = (m - k) + 1 + k from by omega]
    exact hstage

/-- Claim C1: for a buffer whose cursor starts at the grapheme-boundary
position `P = posAt xs k`, starting a `DeleteContext` there, performing any
motion through it that ends at a grapheme-boundary position `Q = posAt xs m`
(`Q` may lie left or right of `P`; motions never change the text), and
committing with `delete` removes exactly the text between `min P Q` and
`max P Q`, leaves the text outside that span unchanged, leaves the cursor at
`min P Q`, and shrinks the buffer by exactly the graphemes that lay between
the two positions. -/
theorem c1_delete_context_span (xs back : List Char) (k m : Nat)
    (hk : k ≤ xs.length) (hm : m ≤ xs.length) :
    DeleteContext.delete { (bufAt xs back k).start_delete with buf := bufAt xs back m }
      = { front_buf := xs.take (min k m) ++ xs.drop (max k m), back_buf := back,
          pos := posAt xs (min k m) } ∧
    (DeleteContext.delete
        { (bufAt xs back k).start_delete with buf := bufAt xs back m }).front_buf.length
      = xs.length - (max k m - min k m) := by
  have hmain : DeleteContext.delete
      { (bufAt xs back k).start_delete with buf := bufAt xs back m }
      = { front_buf := xs.take (min k m) ++ xs.drop (max k m), back_buf := back,
          pos := posAt xs (min k m) } := by
    show (bufAt xs back m).delete_to_pos (posAt xs k) = _
    exact delete_to_pos_valid xs back k m hk hm
  refine ⟨hmain, ?_⟩
  rw [hmain]
  simp only [List.length_append, List.length_take, List.length_drop]
  omega

/-- Witness for C1: deleting the span between positions 1 and 4 of "abcde". -/
theorem c1_delete_context_span_witness :
    1 ≤ ("abcde".toList).length ∧ 4 ≤ ("abcde".toList).length ∧
    DeleteContext.delete
        { (bufAt "abcde".toList [] 1).start_delete with buf := bufAt "abcde".toList [] 4 }
      = { front_buf := "abcde".toList.take (min 1 4) ++ "abcde".toList.drop (max 1 4),
          back_buf := [], pos := posAt "abcde".toList (min 1 4) } :=
  ⟨by decide, by decide,
   (c1_delete_context_span "abcde".toList [] 1 4 (by decide) (by decide)).1⟩

/-- Claim C2 (code bug): inserting the wide CJK character '䩖' (display width
2) advances the display column by 1, not by the character's display width, so
the redraw positions the cursor at column 1 where the claim (and the spec)
require column 2; the repository's own test `move_and_insert_cjk` (buffer.rs)
fails on this code: the replayed operation sequence leaves the buffer equal to
"乫䨻䩖䦴憛" while the test asserts "乫䨻䦴憛". -/
theorem c2_wide_char_display_column :
    (Buffer.new.insert_char_at_cursor '䩖').pos.char_pos = 1 ∧
    charWidth '䩖' = 2 ∧
    (Buffer.new.insert_char_at_cursor '䩖').get_line [] false
      = [13] ++ utf8Bytes '䩖' ++ eraseRightBytes ++ [13, 27, 91, 49, 67] ∧
    cjkTestBuffer.front_buf = "乫䨻䩖䦴憛".toList ∧
    cjkTestBuffer.front_buf ≠ "乫䨻䦴憛".toList :=
  ⟨rfl, by decide, by decide, by decide, by decide⟩

/-- Claim C5 counterexample: on the buffer "a" with the cursor one past the
last character, `exclude_eol` does step the cursor back one grapheme, but it
returns `false`, while the claim states it returns `true` exactly there. -/
theorem c5_exclude_eol_counterexample :
    ((bufAt "a".toList [] 1).exclude_eol).2 = false ∧
    ((bufAt "a".toList [] 1).exclude_eol).1 = bufAt "a".toList [] 0 :=
  ⟨by decide, by decide⟩

/-- Claim C5 amended: `exclude_eol` moves the cursor one grapheme to the left
exactly when the cursor sits one past the last character and leaves it
unchanged at every other grapheme-boundary position, but it returns `true` if
and only if the cursor was NOT at the one-past-the-end position (it returns
whether a rightward move was possible). -/
theorem c5_exclude_eol_amended (xs back : List Char) (k : Nat) (hk : k ≤ xs.length) :
    (k < xs.length → (bufAt xs back k).exclude_eol = (bufAt xs back k, true)) ∧
    (k = xs.length → 0 < xs.length →
      (bufAt xs back k).exclude_eol = (bufAt xs back (k - 1), false)) ∧
    (k = xs.length → xs.length = 0 →
      (bufAt xs back k).exclude_eol = (bufAt xs back k, false)) := by
  refine ⟨?_, ?_, ?_⟩
  · intro hlt
    obtain ⟨c, hc, -⟩ := getElem?_some_of_lt hlt
    simp only [Buffer.exclude_eol, move_right_bufAt back hc, move_left_bufAt back hc]
  · intro heq hpos
    have hnone : xs[k]? = none := by
      rw [List.getElem?_eq_none_iff]
      omega
    have hk1 : k - 1 < xs.length := by omega
    obtain ⟨c, hc, -⟩ := getElem?_some_of_lt hk1
    have hksucc : k = (k - 1) + 1 := by omega
    simp only [Buffer.exclude_eol, move_right_bufAt_none back hnone]
    rw [hksucc, move_left_bufAt back hc]
    simp
  · intro heq hzero
    have hk0 : k = 0 := by omega
    subst hk0
    have hnone : xs[0]? = none := by
      rw [List.getElem?_eq_none_iff]
      omega
    simp only [Buffer.exclude_eol, move_right_bufAt_none back hnone,
      move_left_bufAt_zero]

/-- Witness for C5: on "ab" with the cursor at position 2 (one past the end),
`exclude_eol` steps back to position 1 and returns `false`. -/
theorem c5_exclude_eol_amended_witness :
    2 ≤ ("ab".toList).length ∧
    (bufAt "ab".toList [] 2).exclude_eol = (bufAt "ab".toList [] 1, false) :=
  ⟨by decide, (c5_exclude_eol_amended "ab".toList [] 2 (by decide)).2.1 (by decide) (by decide)⟩

/-- Claim C6: the DoneOrEof instruction (produced by Ctrl-D in Vi
insert/normal mode) always halts the line-read: with the EndOfFile error
exactly when the buffer is empty, and otherwise successfully with the
buffer's full contents, the buffer being drained in the process. -/
theorem c6_done_or_eof (ctx : EditCtx) :
    applyInstr .doneOrEof ctx
      = (if ctx.buf.front_buf.isEmpty then ERes.halt (.err .endOfFile) ctx
         else ERes.halt (.ok ctx.buf.front_buf)
           { ctx with buf := { front_buf := [], back_buf := ctx.buf.back_buf,
                               pos := { byte_pos := 0, char_pos := 0 } } }) ∧
    interpret_token .ctrlD .vi .insert = .doneOrEof ∧
    interpret_token .ctrlD .vi .normal = .doneOrEof := by
  refine ⟨?_, rfl, rfl⟩
  simp only [applyInstr, Buffer.is_empty, Buffer.drain]

/-- Claim C9: in Emacs mode the Ctrl-D token maps to
DeleteCharRightOfCursorOrEOF, which halts the line-read with the EndOfFile
error exactly when the rightward delete fails, i.e. when the cursor sits at
the end of the line — including on a non-empty buffer, whose in-progress
contents are then discarded; at every other grapheme-boundary position it
deletes the character under the cursor and editing continues. -/
theorem c9_emacs_ctrl_d (ctx : EditCtx) (xs back : List Char) (k : Nat)
    (hbuf : ctx.buf = bufAt xs back k) (hk : k ≤ xs.length) :
    (∀ vm, interpret_token .ctrlD .emacs vm = .deleteCharRightOfCursorOrEOF) ∧
    (k = xs.length →
      applyInstr .deleteCharRightOfCursorOrEOF ctx = .halt (.err .endOfFile) ctx) ∧
    (k < xs.length →
      applyInstr .deleteCharRightOfCursorOrEOF ctx
        = .cont false { ctx with buf := { front_buf := xs.take k ++ xs.drop (k + 1),
                                          back_buf := back, pos := posAt xs k } }) := by
  refine ⟨fun _ => rfl, ?_, ?_⟩
  · intro hend
    subst hend
    have hfail : (ctx.buf.delete_char_right_of_cursor) = (ctx.buf, false) := by
      rw [hbuf]
      simp only [Buffer.delete_char_right_of_cursor, bufAt, posAt]
      rw [List.take_length]
      simp
    simp only [applyInstr, hfail]
    simp
  · intro hlt
    obtain ⟨c, hc, -⟩ := getElem?_some_of_lt hlt
    have hdecomp : xs = xs.take k ++ c :: xs.drop (k + 1) := by
      conv_lhs => rw [← List.take_append_drop (k + 1) xs]
      rw [take_succ_of_getElem hc]
      simp
    have hblt : byteLen (xs.take k) < byteLen xs := by
      have := byteLen_take_lt xs hlt (le_refl xs.length)
      rwa [List.take_length] at this
    have hok : ctx.buf.delete_char_right_of_cursor
        = ({ front_buf := xs.take k ++ xs.drop (k + 1), back_buf := back,
             pos := posAt xs k }, true) := by
      rw [hbuf]
      simp only [Buffer.delete_char_right_of_cursor, bufAt, posAt]
      rw [if_pos hblt]
      have h2 : removeAtByte (xs.take k ++ c :: xs.drop (k + 1)) (byteLen (xs.take k))
          = xs.take k ++ xs.drop (k + 1) := removeAtByte_append _ _ _
      rw [← hdecomp] at h2
      rw [h2]
    simp only [applyInstr, hok]
    simp

/-- Witness for C9: on "ab" with the cursor at the end the instruction halts
with EndOfFile; with the cursor at 0 it deletes 'a' and continues. -/
theorem c9_emacs_ctrl_d_witness :
    applyInstr .deleteCharRightOfCursorOrEOF
        { EditCtx.new [] [] .emacs with buf := bufAt "ab".toList [] 2 }
      = .halt (.err .endOfFile) { EditCtx.new [] [] .emacs with buf := bufAt "ab".toList [] 2 } ∧
    applyInstr .deleteCharRightOfCursorOrEOF
        { EditCtx.new [] [] .emacs with buf := bufAt "ab".toList [] 0 }
      = .cont false { EditCtx.new [] [] .emacs with
                      buf := { front_buf := "ab".toList.take 0 ++ "ab".toList.drop 1,
                               back_buf := [], pos := posAt "ab".toList 0 } } :=
  ⟨(c9_emacs_ctrl_d { EditCtx.new [] [] .emacs with buf := bufAt "ab".toList [] 2 }
      "ab".toList [] 2 rfl (by decide)).2.1 (by decide),
   (c9_emacs_ctrl_d { EditCtx.new [] [] .emacs with buf := bufAt "ab".toList [] 0 }
      "ab".toList [] 0 rfl (by decide)).2.2 (by decide)⟩

/-- Claim C10: `History::push` leaves the history unchanged when the pushed
line is empty or equals the current most-recent entry, and otherwise prepends
it, growing the length by exactly one; consequently the history never stores
an empty line, and pushing the same line twice never creates two adjacent
equal entries at the front (the second push is a no-op). -/
theorem c10_history_push (h : List (List Char)) (s : List Char) :
    (s = [] → History.push h s = h) ∧
    (h.head? = some s → History.push h s = h) ∧
    (s ≠ [] → h.head? ≠ some s →
      History.push h s = s :: h ∧ (History.push h s).length = h.length + 1) ∧
    ([] ∉ h → [] ∉ History.push h s) ∧
    History.push (History.push h s) s = History.push h s := by
  refine ⟨?_, ?_, ?_, ?_, ?_⟩
  · intro hs
    subst hs
    simp [History.push]
  · intro hh
    simp [History.push, hh]
  · intro hs hh
    have hlen : 0 < s.length := List.length_pos.mpr hs
    simp [History.push, hlen, hh]
  · intro hmem
    by_cases hcond : 0 < s.length ∧ h.head? ≠ some s
    · have hpush : History.push h s = s :: h := by simp [History.push, hcond.1, hcond.2]
      rw [hpush]
      intro hmem2
      rcases List.mem_cons.mp hmem2 with h1 | h1
      · have : s.length = 0 := by rw [← h1]; rfl
        omega
      · exact hmem h1
    · have hpush : History.push h s = h := by
        simp only [History.push]
        rw [if_neg hcond]
      rw [hpush]
      exact hmem
  · by_cases hcond : 0 < s.length ∧ h.head? ≠ some s
    · have hpush : History.push h s = s :: h := by simp [History.push, hcond.1, hcond.2]
      rw [hpush]
      simp [History.push]
    · have hpush : History.push h s = h := by
        simp only [History.push]
        rw [if_neg hcond]
      rw [hpush, hpush]

/-- Witness for C10: pushing "a" onto a history headed by "b" prepends it. -/
theorem c10_history_push_witness :
    History.push ["b".toList] "a".toList = "a".toList :: ["b".toList] ∧
    (History.push ["b".toList] "a".toList).length = (["b".toList]).length + 1 :=
  (c10_history_push ["b".toList] "a".toList).2.2.1 (by decide) (by decide)

theorem match_head_ne_esc {b : Nat} {t : Token} (hb : b ≤ 26 ∨ b = 127)
    (ht : match_head b = some t) : t ≠ .esc := by
  rcases hb with hb | hb
  · interval_cases b <;> simp_all [match_head] <;> subst ht <;> simp
  · subst hb
    simp [match_head] at ht
    subst ht
    simp

/-- Claim C8: every byte sequence whose first byte is one of 0–26 or 127
parses to the corresponding named control token of the fixed lookup table,
consuming exactly 1 byte, regardless of the following bytes and of the
configured encoding; every sequence beginning ESC '[' X with X in
{A,B,C,D,F,H} parses to the corresponding token consuming 3 bytes; and
ESC '[' '3' '~' parses to the forward-delete token consuming 4 bytes. -/
theorem c8_parse_tokens :
    (∀ b t (rest : List Nat) (enc : Enc), b ≤ 26 ∨ b = 127 → match_head b = some t →
      parse (b :: rest) enc = .ok t 1) ∧
    (∀ (rest : List Nat) (enc : Enc),
      parse (27 :: 91 :: 65 :: rest) enc = .ok .escBracketA 3 ∧
      parse (27 :: 91 :: 66 :: rest) enc = .ok .escBracketB 3 ∧
      parse (27 :: 91 :: 67 :: rest) enc = .ok .escBracketC 3 ∧
      parse (27 :: 91 :: 68 :: rest) enc = .ok .escBracketD 3 ∧
      parse (27 :: 91 :: 70 :: rest) enc = .ok .escBracketF 3 ∧
      parse (27 :: 91 :: 72 :: rest) enc = .ok .escBracketH 3) ∧
    (∀ (rest : List Nat) (enc : Enc),
      parse (27 :: 91 :: 51 :: 126 :: rest) enc = .ok .escBracket3T 4) := by
  refine ⟨?_, ?_, ?_⟩
  · intro b t rest enc hb ht
    have hne := match_head_ne_esc hb ht
    simp only [parse, parse_char, List.getElem?_cons_zero, ht]
    rw [if_neg (by intro hand; exact hne hand.1)]
  · intro rest enc
    refine ⟨?_, ?_, ?_, ?_, ?_, ?_⟩ <;>
      simp [parse, parse_char, parse_esc, parse_esc_bracket, match_head]
  · intro rest enc
    simp [parse, parse_char, parse_esc, parse_esc_bracket, match_head]

/-- Witness for C8: the single byte 4 (Ctrl-D) parses to the Ctrl-D token
consuming one byte, whatever follows. -/
theorem c8_parse_tokens_witness :
    ((4 ≤ 26 ∨ (4 : Nat) = 127) ∧ match_head 4 = some .ctrlD) ∧
    parse (4 :: [99, 100]) asciiEnc = .ok .ctrlD 1 :=
  ⟨⟨Or.inl (by decide), by decide⟩,
   c8_parse_tokens.1 4 .ctrlD [99, 100] asciiEnc (Or.inl (by decide)) (by decide)⟩

theorem applyInstr_digit_acc (ctx : EditCtx) (d : Nat)
    (h : ¬ (ctx.vi_count = 0 ∧ d = 0)) :
    applyInstr (.digit d) ctx
      = .cont false { ctx with vi_count :=
          if ctx.vi_count ≤ (u32Max - d) / 10 then ctx.vi_count * 10 + d
          else ctx.vi_count } := by
  rcases hc : ctx.vi_count with _ | n <;> rcases hd : d with _ | m <;>
    simp_all [applyInstr]

/-- Claim C4: a Digit(d) instruction with pending count 0 and d = 0 moves the
cursor to the start of the line, wrapped in the same Delete/Change span
deletion as other motions; otherwise the pending count becomes 10*k + d
except that the digit is ignored (count stays k) whenever 10*k + d would
exceed the 32-bit maximum; the update can never leave the 32-bit range; and
feeding Escape, fifty '9' digits and Enter to the Vi edit loop completes the
line-read normally with an empty result. -/
theorem c4_digit_accumulation :
    (∀ (ctx : EditCtx) xs back k, ctx.buf = bufAt xs back k → k ≤ xs.length →
      ctx.vi_count = 0 →
      (ctx.vi_mode = .normal →
        applyInstr (.digit 0) ctx
          = .cont false { ctx with buf := bufAt xs back 0, vi_mode := .normal }) ∧
      (ctx.vi_mode = .delete →
        applyInstr (.digit 0) ctx
          = .cont false { ctx with
              buf := { front_buf := xs.drop k, back_buf := back,
                       pos := { byte_pos := 0, char_pos := 0 } },
              vi_mode := .normal }) ∧
      (ctx.vi_mode = .change →
        applyInstr (.digit 0) ctx
          = .cont false { ctx with
              buf := { front_buf := xs.drop k, back_buf := back,
                       pos := { byte_pos := 0, char_pos := 0 } },
              vi_mode := .insert })) ∧
    (∀ (ctx : EditCtx) d, d ≤ 9 → ¬ (ctx.vi_count = 0 ∧ d = 0) →
      applyInstr (.digit d) ctx
        = .cont false { ctx with vi_count :=
            if ctx.vi_count * 10 + d ≤ u32Max then ctx.vi_count * 10 + d
            else ctx.vi_count }) ∧
    (∀ cnt d, cnt ≤ u32Max → d ≤ 9 →
      (if cnt * 10 + d ≤ u32Max then cnt * 10 + d else cnt) ≤ u32Max) ∧
    interpret_token (.text ['9']) .vi .normal = .digit 9 ∧
    runEdit asciiEnc 60 (EditCtx.new "foo> ".toList [] .vi)
      (27 :: (List.replicate 50 57 ++ [13])) = .ok [] := by
  refine ⟨?_, ?_, ?_, rfl, by decide⟩
  · intro ctx xs back k hbuf hk hcnt
    have hdel : ∀ ws : Bool, DeleteContext.delete
        { was_on_whitespace := ws, start_pos := posAt xs k,
          buf := { front_buf := xs, back_buf := back,
                   pos := { byte_pos := 0, char_pos := 0 } } }
        = { front_buf := xs.drop k, back_buf := back,
            pos := { byte_pos := 0, char_pos := 0 } } := by
      intro ws
      show (bufAt xs back 0).delete_to_pos (posAt xs k) = _
      rw [delete_to_pos_valid xs back k 0 hk (by omega)]
      simp [posAt, byteLen]
    refine ⟨?_, ?_, ?_⟩ <;> intro hvm
    · simp only [applyInstr, hcnt, viDelete, viRepeat, dcMotion, hvm, Buffer.start_delete,
        hbuf, bufAt, Buffer.move_start, nextViMode, posAt]
      simp [byteLen]
    · simp only [applyInstr, hcnt, viDelete, viRepeat, dcMotion, hvm, Buffer.start_delete,
        hbuf, bufAt, Buffer.move_start, nextViMode]
      rw [hdel]
    · simp only [applyInstr, hcnt, viDelete, viRepeat, dcMotion, hvm, Buffer.start_delete,
        hbuf, bufAt, Buffer.move_start, nextViMode]
      rw [hdel]
  · intro ctx d hd hne
    rw [applyInstr_digit_acc ctx d hne]
    have hiff : (ctx.vi_count ≤ (u32Max - d) / 10) = (ctx.vi_count * 10 + d ≤ u32Max) := by
      apply propext
      rw [Nat.le_div_iff_mul_le (by norm_num)]
      simp only [u32Max]
      omega
    simp only [hiff]
  · intro cnt d hcnt hd
    split
    · assumption
    · exact hcnt

/-- Witness for C4: in Vi normal mode with pending count 42 the digit 9
accumulates to 429 (the guard allows the update). -/
theorem c4_digit_accumulation_witness :
    ((9 : Nat) ≤ 9 ∧ ¬ ((42 : Nat) = 0 ∧ (9 : Nat) = 0)) ∧
    applyInstr (.digit 9) { EditCtx.new [] [] .vi with vi_mode := .normal, vi_count := 42 }
      = .cont false { EditCtx.new [] [] .vi with
                      vi_mode := .normal,
                      vi_count := if 42 * 10 + 9 ≤ u32Max then 42 * 10 + 9 else 42 } :=
  ⟨⟨by decide, by decide⟩,
   c4_digit_accumulation.2.1
     { EditCtx.new [] [] .vi with vi_mode := .normal, vi_count := 42 } 9
     (by decide) (by decide)⟩

/-! Lemmas for the char-search motions (claim C7). -/

theorem getElem?_lt_length {α : Type} {l : List α} {n : Nat} {x : α}
    (h : l[n]? = some x) : n < l.length := by
  by_contra hge
  rw [List.getElem?_eq_none (by omega)] at h
  simp at h

theorem moveToCharLoop_right_found (xs back : List Char) (c : Char) :
    ∀ gap k fuel,
      (∀ r, k < r → r < k + gap + 1 → xs[r]? ≠ some c) →
      xs[k + gap + 1]? = some c →
      moveToCharLoop c .right (gap + 1 + fuel) (bufAt xs back k)
        = (bufAt xs back (k + gap + 1), true) := by
  intro gap
  induction gap with
  | zero =>
    intro k fuel _ ht
    have hk : k < xs.length := by have := getElem?_lt_length ht; omega
    obtain ⟨x, hx, -⟩ := getElem?_some_of_lt hk
    rw [show 0 + 1 + fuel = fuel + 1 from by omega]
    simp only [moveToCharLoop, advance, move_right_bufAt back hx,
      cp_after_bufAt]
    rw [show k + 0 + 1 = k + 1 from by omega] at ht ⊢
    simp [ht]
  | succ gap ih =>
    intro k fuel hmid ht
    have hk : k < xs.length := by have := getElem?_lt_length ht; omega
    obtain ⟨x, hx, -⟩ := getElem?_some_of_lt hk
    have hk1 : k + 1 < xs.length := by have := getElem?_lt_length ht; omega
    obtain ⟨y, hy, -⟩ := getElem?_some_of_lt hk1
    have hyne : y ≠ c := by
      intro hyc
      exact hmid (k + 1) (by omega) (by omega) (hyc ▸ hy)
    rw [show gap + 1 + 1 + fuel = (gap + 1 + fuel) + 1 from by omega]
    simp only [moveToCharLoop, advance, move_right_bufAt back hx, cp_after_bufAt]
    rw [hy]
    simp only [hyne, if_true, if_false, ite_false]
    have := ih (k + 1) fuel
      (fun r h1 h2 => hmid r (by omega) (by omega))
      (by rw [show k + 1 + gap + 1 = k + (gap + 1) + 1 from by omega]; exact ht)
    rw [show k + 1 + gap + 1 = k + (gap + 1) + 1 from by omega] at this
    simpa [hyne] using this

theorem moveToCharLoop_right_notfound (xs back : List Char) (c : Char) :
    ∀ rem k fuel, k + rem = xs.length →
      (∀ r, k < r → r < xs.length → xs[r]? ≠ some c) →
      moveToCharLoop c .right (rem + 1 + fuel) (bufAt xs back k)
        = (bufAt xs back xs.length, false) := by
  intro rem
  induction rem with
  | zero =>
    intro k fuel hk _
    have hnone : xs[k]? = none := by
      rw [List.getElem?_eq_none_iff]
      omega
    rw [show 0 + 1 + fuel = fuel + 1 from by omega]
    simp only [moveToCharLoop, advance, move_right_bufAt_none back hnone]
    simp [show k = xs.length from by omega]
  | succ rem ih =>
    intro k fuel hk hnone
    have hklt : k < xs.length := by omega
    obtain ⟨x, hx, -⟩ := getElem?_some_of_lt hklt
    rw [show rem + 1 + 1 + fuel = (rem + 1 + fuel) + 1 from by omega]
    simp only [moveToCharLoop, advance, move_right_bufAt back hx, cp_after_bufAt]
    rcases Nat.lt_or_ge (k + 1) xs.length with h1 | h1
    · obtain ⟨y, hy, -⟩ := getElem?_some_of_lt h1
      have hyne : y ≠ c := fun hyc => hnone (k + 1) (by omega) h1 (hyc ▸ hy)
      rw [hy]
      simp only [hyne, ite_false]
      have hres := ih (k + 1) fuel (by omega) (fun r hr1 hr2 => hnone r (by omega) hr2)
      simpa [hyne] using hres
    · have hy : xs[k + 1]? = none := by
        rw [List.getElem?_eq_none_iff]
        omega
      rw [hy]
      simp [show k + 1 = xs.length from by omega]

theorem move_to_char_right_found (xs back : List Char) (c : Char) {k t : Nat}
    (hfirst : FirstRight xs c k t) :
    (bufAt xs back k).move_to_char c .right = (bufAt xs back t, true) := by
  obtain ⟨hkt, htlen, htc, hmid⟩ := hfirst
  have hgap : t = k + (t - k - 1) + 1 := by omega
  have hfuel : xs.length + k + 1 = (t - k - 1) + 1 + (xs.length + k + 1 - (t - k)) := by omega
  simp only [Buffer.move_to_char, bufAt, posAt]
  rw [hfuel]
  have := moveToCharLoop_right_found xs back c (t - k - 1) k (xs.length + k + 1 - (t - k))
    (fun r h1 h2 => hmid r h1 (by omega)) (by rw [← hgap]; exact htc)
  rw [← hgap] at this
  exact this

theorem move_to_char_right_notfound (xs back : List Char) (c : Char) {k : Nat}
    (hk : k ≤ xs.length)
    (hno : ∀ r, k < r → r < xs.length → xs[r]? ≠ some c) :
    (bufAt xs back k).move_to_char c .right = (bufAt xs back xs.length, false) := by
  simp only [Buffer.move_to_char, bufAt, posAt]
  rw [show xs.length + k + 1 = (xs.length - k) + 1 + 2 * k from by omega]
  exact moveToCharLoop_right_notfound xs back c (xs.length - k) k (2 * k) (by omega) hno

theorem exists_first_right_of_occ (xs : List Char) (c : Char) (k : Nat)
    (h : ∃ r, k < r ∧ xs[r]? = some c) : ∃ m, FirstRight xs c k m := by
  classical
  have hfind := Nat.find_spec h
  refine ⟨Nat.find h, hfind.1, getElem?_lt_length hfind.2, hfind.2, ?_⟩
  intro r h1 h2 hc
  exact Nat.find_min h h2 ⟨h1, hc⟩

theorem moveToCharCountLoop_right_nth (xs back : List Char) (c : Char) :
    ∀ n k t, k ≤ xs.length → NthRight xs c k n t →
      moveToCharCountLoop c .right n (bufAt xs back k) = (bufAt xs back t, true) := by
  intro n
  induction n with
  | zero =>
    intro k t _ hnth
    have : t = k := hnth
    subst this
    rfl
  | succ n ih =>
    intro k t hk hnth
    obtain ⟨m, hfirst, hrest⟩ := hnth
    have hmlen : m < xs.length := hfirst.2.1
    simp only [moveToCharCountLoop, move_to_char_right_found xs back c hfirst]
    exact ih m t (by omega) hrest

theorem moveToCharCountLoop_right_fail (xs back : List Char) (c : Char) :
    ∀ n k, 1 ≤ n → k ≤ xs.length → (¬ ∃ t, NthRight xs c k n t) →
      moveToCharCountLoop c .right n (bufAt xs back k)
        = (bufAt xs back xs.length, false) := by
  intro n
  induction n with
  | zero => intro k h; omega
  | succ n ih =>
    intro k hn hk hno
    by_cases hocc : ∃ m, FirstRight xs c k m
    · obtain ⟨m, hm⟩ := hocc
      have hmlen : m < xs.length := hm.2.1
      simp only [moveToCharCountLoop, move_to_char_right_found xs back c hm]
      have hn' : 1 ≤ n := by
        by_contra hz
        have : n = 0 := by omega
        subst this
        exact hno ⟨m, m, hm, rfl⟩
      exact ih m hn' (by omega) (fun ⟨t, ht⟩ => hno ⟨t, m, hm, ht⟩)
    · have hnone : ∀ r, k < r → r < xs.length → xs[r]? ≠ some c := by
        intro r h1 h2 hc
        exact hocc (exists_first_right_of_occ xs c k ⟨r, h1, hc⟩)
      simp only [moveToCharCountLoop, move_to_char_right_notfound xs back c hk hnone]
      simp

/-! The mirrored lemmas for leftward char search. -/

theorem moveToCharLoop_left_found (xs back : List Char) (c : Char) :
    ∀ gap t fuel, t + gap + 1 ≤ xs.length →
      (∀ r, t < r → r < t + gap + 1 → xs[r]? ≠ some c) →
      xs[t]? = some c →
      moveToCharLoop c .left (gap + 1 + fuel) (bufAt xs back (t + gap + 1))
        = (bufAt xs back t, true) := by
  intro gap
  induction gap with
  | zero =>
    intro t fuel _ _ ht
    rw [show 0 + 1 + fuel = fuel + 1 from by omega]
    simp only [moveToCharLoop, advance]
    rw [show t + 0 + 1 = t + 1 from by omega]
    rw [move_left_bufAt back ht]
    simp [cp_after_bufAt, ht]
  | succ gap ih =>
    intro t fuel hlen hmid ht
    have hprev : t + gap + 1 < xs.length := by omega
    obtain ⟨y, hy, -⟩ := getElem?_some_of_lt hprev
    have hyne : y ≠ c := fun hyc => hmid (t + gap + 1) (by omega) (by omega) (hyc ▸ hy)
    rw [show gap + 1 + 1 + fuel = (gap + 1 + fuel) + 1 from by omega]
    simp only [moveToCharLoop, advance]
    rw [show t + (gap + 1) + 1 = (t + gap + 1) + 1 from by omega]
    rw [move_left_bufAt back hy]
    simp only [cp_after_bufAt, hy, hyne, ite_false]
    have hres := ih t fuel (by omega) (fun r h1 h2 => hmid r h1 (by omega)) ht
    simpa [hyne] using hres

theorem moveToCharLoop_left_notfound (xs back : List Char) (c : Char) :
    ∀ k fuel, k ≤ xs.length →
      (∀ r, r < k → xs[r]? ≠ some c) →
      moveToCharLoop c .left (k + 1 + fuel) (bufAt xs back k)
        = (bufAt xs back 0, false) := by
  intro k
  induction k with
  | zero =>
    intro fuel _ _
    rw [show 0 + 1 + fuel = fuel + 1 from by omega]
    simp [moveToCharLoop, advance, move_left_bufAt_zero]
  | succ k ih =>
    intro fuel hk hno
    have hklt : k < xs.length := by omega
    obtain ⟨x, hx, -⟩ := getElem?_some_of_lt hklt
    have hxne : x ≠ c := fun hxc => hno k (by omega) (hxc ▸ hx)
    rw [show k + 1 + 1 + fuel = (k + 1 + fuel) + 1 from by omega]
    simp only [moveToCharLoop, advance, move_left_bufAt back hx]
    simp only [cp_after_bufAt, hx, hxne, ite_false]
    have hres := ih fuel (by omega) (fun r h1 => hno r (by omega))
    simpa [hxne] using hres

theorem move_to_char_left_found (xs back : List Char) (c : Char) {k t : Nat}
    (hk : k ≤ xs.length) (hfirst : FirstLeft xs c k t) :
    (bufAt xs back k).move_to_char c .left = (bufAt xs back t, true) := by
  obtain ⟨htk, htc, hmid⟩ := hfirst
  have hgap : k = t + (k - t - 1) + 1 := by omega
  have hfuel : xs.length + k + 1 = (k - t - 1) + 1 + (xs.length + t + 1) := by omega
  simp only [Buffer.move_to_char, bufAt, posAt]
  rw [hfuel]
  have := moveToCharLoop_left_found xs back c (k - t - 1) t (xs.length + t + 1)
    (by omega) (fun r h1 h2 => hmid r h1 (by omega)) htc
  rw [← hgap] at this
  exact this

theorem move_to_char_left_notfound (xs back : List Char) (c : Char) {k : Nat}
    (hk : k ≤ xs.length)
    (hno : ∀ r, r < k → xs[r]? ≠ some c) :
    (bufAt xs back k).move_to_char c .left = (bufAt xs back 0, false) := by
  simp only [Buffer.move_to_char, bufAt, posAt]
  rw [show xs.length + k + 1 = k + 1 + xs.length from by omega]
  exact moveToCharLoop_left_notfound xs back c k xs.length hk hno

theorem exists_first_left_of_occ (xs : List Char) (c : Char) :
    ∀ k, (∃ r, r < k ∧ xs[r]? = some c) → ∃ m, FirstLeft xs c k m := by
  intro k
  induction k with
  | zero =>
    rintro ⟨r, hr, -⟩
    omega
  | succ k ih =>
    rintro ⟨r, hr, hrc⟩
    by_cases hk : xs[k]? = some c
    · exact ⟨k, by omega, hk, fun s h1 h2 => (by omega : False).elim⟩
    · have hrk : r < k := by
        rcases Nat.lt_or_ge r k with h | h
        · exact h
        · have : r = k := by omega
          subst this
          exact absurd hrc hk
      obtain ⟨m, hm1, hm2, hm3⟩ := ih ⟨r, hrk, hrc⟩
      refine ⟨m, by omega, hm2, ?_⟩
      intro s h1 h2
      rcases Nat.lt_or_ge s k with h | h
      · exact hm3 s h1 h
      · have : s = k := by omega
        subst this
        exact hk

theorem moveToCharCountLoop_left_nth (xs back : List Char) (c : Char) :
    ∀ n k t, k ≤ xs.length → NthLeft xs c k n t →
      moveToCharCountLoop c .left n (bufAt xs back k) = (bufAt xs back t, true) := by
  intro n
  induction n with
  | zero =>
    intro k t _ hnth
    have : t = k := hnth
    subst this
    rfl
  | succ n ih =>
    intro k t hk hnth
    obtain ⟨m, hfirst, hrest⟩ := hnth
    have hmk : m < k := hfirst.1
    simp only [moveToCharCountLoop, move_to_char_left_found xs back c hk hfirst]
    exact ih m t (by omega) hrest

theorem moveToCharCountLoop_left_fail (xs back : List Char) (c : Char) :
    ∀ n k, 1 ≤ n → k ≤ xs.length → (¬ ∃ t, NthLeft xs c k n t) →
      moveToCharCountLoop c .left n (bufAt xs back k)
        = (bufAt xs back 0, false) := by
  intro n
  induction n with
  | zero => intro k h; omega
  | succ n ih =>
    intro k hn hk hno
    by_cases hocc : ∃ m, FirstLeft xs c k m
    · obtain ⟨m, hm⟩ := hocc
      have hmk : m < k := hm.1
      simp only [moveToCharCountLoop, move_to_char_left_found xs back c hk hm]
      have hn' : 1 ≤ n := by
        by_contra hz
        have : n = 0 := by omega
        subst this
        exact hno ⟨m, m, hm, rfl⟩
      exact ih m hn' (by omega) (fun ⟨t, ht⟩ => hno ⟨t, m, hm, ht⟩)
    · have hnone : ∀ r, r < k → xs[r]? ≠ some c := by
        intro r h1 hc
        exact hocc (exists_first_left_of_occ xs c k ⟨r, h1, hc⟩)
      simp only [moveToCharCountLoop, move_to_char_left_notfound xs back c hk hnone]
      simp

/-- Claim C7: for every buffer with the cursor at a grapheme-boundary
position, a target character `c` and a count `n ≥ 1`, `move_to_char_right`
and `move_to_char_left` either return `true` leaving the cursor on the `n`-th
occurrence of `c` in the scan direction, or — when fewer than `n` occurrences
exist in that direction — return `false` with the `Position` (byte offset and
display column) restored exactly to its value before the call, keeping no
partial progress. -/
theorem c7_move_to_char (xs back : List Char) (c : Char) (n k : Nat)
    (hn : 1 ≤ n) (hk : k ≤ xs.length) :
    (∀ t, NthRight xs c k n t →
      (bufAt xs back k).move_to_char_right c n = (bufAt xs back t, true)) ∧
    ((¬ ∃ t, NthRight xs c k n t) →
      (bufAt xs back k).move_to_char_right c n = (bufAt xs back k, false)) ∧
    (∀ t, NthLeft xs c k n t →
      (bufAt xs back k).move_to_char_left c n = (bufAt xs back t, true)) ∧
    ((¬ ∃ t, NthLeft xs c k n t) →
      (bufAt xs back k).move_to_char_left c n = (bufAt xs back k, false)) := by
  have hnlt : ¬ (byteLen xs < byteLen (List.take k xs)) := by
    have := byteLen_take_le xs k
    omega
  refine ⟨?_, ?_, ?_, ?_⟩
  · intro t hnth
    simp only [Buffer.move_to_char_right,
      moveToCharCountLoop_right_nth xs back c n k t hk hnth]
    simp
  · intro hno
    simp only [Buffer.move_to_char_right,
      moveToCharCountLoop_right_fail xs back c n k hn hk hno]
    simp only [Buffer.move_to_pos, bufAt, posAt]
    rw [if_neg hnlt]
    simp
  · intro t hnth
    simp only [Buffer.move_to_char_left,
      moveToCharCountLoop_left_nth xs back c n k t hk hnth]
    simp
  · intro hno
    simp only [Buffer.move_to_char_left,
      moveToCharCountLoop_left_fail xs back c n k hn hk hno]
    simp only [Buffer.move_to_pos, bufAt, posAt]
    rw [if_neg hnlt]
    simp

/-- Witness for C7: in "aba", from the start, the 1st 'a' to the right is at
index 2; searching for 'z' fails and restores the position. -/
theorem c7_move_to_char_witness :
    (1 ≤ 1 ∧ 0 ≤ ("aba".toList).length) ∧
    (bufAt "aba".toList [] 0).move_to_char_right 'a' 1 = (bufAt "aba".toList [] 2, true) ∧
    (bufAt "aba".toList [] 0).move_to_char_right 'z' 1 = (bufAt "aba".toList [] 0, false) :=
  ⟨⟨by decide, by decide⟩,
   (c7_move_to_char "aba".toList [] 'a' 1 0 (by decide) (by decide)).1 2
     ⟨2, ⟨by decide, by decide, by decide, by
        intro r h1 h2
        interval_cases r
        decide⟩, rfl⟩,
   (c7_move_to_char "aba".toList [] 'z' 1 0 (by decide) (by decide)).2.1 (by
      rintro ⟨t, m, ⟨h1, h2, h3, h4⟩, ht⟩
      have hm : m < 3 := by simpa using h2
      interval_cases m <;> simp_all)⟩

/-! Lemmas for the word motions (claim C3). -/

end Copperline
